import Mathlib

/-!
# A shallow embedding of the `common-schema` runtime schema engine

This file models the core of the `common-schema` library: JavaScript-like
values, canonical subschema trees, the per-type shallow `validate` /
`normalize` operations, type-match scoring, the `or`-type alternative
matching algorithm, and the generic traversal / transform engine together
with its `Validator` and `Normalizer` handler sets.

Scope of the embedding:
* Values are JavaScript values restricted to `undefined`, `null`, booleans,
  integer numbers, strings, arrays and plain objects.  `Date` and `Buffer`
  values (and the `date` / `binary` / geo schema types that consume them)
  are outside the embedded universe, as are the `autodetect` type,
  per-key override subschemas (`keySchemas`), regular-expression `match`
  parameters and caller-supplied inline `validate` / `normalize` functions.
* Machine floats are modelled as integers; the string/number conversions
  used by the engine are modelled for the integer fragment.
* JavaScript in-place mutation of container values is modelled by value
  passing: every operation returns the resulting value.
* `===` on reference types (objects/arrays) compares object identities;
  values of different provenance are therefore never `===`-equal, which is
  how `checkEnum` is modelled on containers.
* Host primitives used by the engine (`JSON.parse`, `JSON.stringify`,
  `objtools.objectHash`, `objtools.getPath`, string conversion) are given
  executable models.
* A thrown JavaScript `TypeError` (e.g. calling `.toLowerCase()` on a
  non-string) and a thrown `SchemaError` are modelled as `Crash` results,
  distinct from accumulated `FieldError` validation failures.
-/

/-- JavaScript values, restricted to the universe described in the module
doc: `undefined`, `null`, booleans, (integer) numbers, strings, arrays and
plain objects.  Objects are association lists in key insertion order. -/
inductive Value where
  | vundef : Value
  | vnull : Value
  | vbool (b : Bool) : Value
  | vnum (n : Int) : Value
  | vstr (s : String) : Value
  | varr (elems : List Value) : Value
  | vobj (fields : List (String × Value)) : Value
deriving Repr

namespace Value

/-- `v === undefined`. -/
def isUndef : Value → Bool
  | vundef => true
  | _ => false

/-- `v === null`. -/
def isNull : Value → Bool
  | vnull => true
  | _ => false

/-- `v === undefined || v === null`. -/
def isNullish : Value → Bool
  | vundef => true
  | vnull => true
  | _ => false

/-- `objtools.isPlainObject`: a plain key/value map (not an array, not null). -/
def isPlainObject : Value → Bool
  | vobj _ => true
  | _ => false

/-- `Array.isArray` / `_.isArray`. -/
def isArray : Value → Bool
  | varr _ => true
  | _ => false

/-- `typeof v === 'object' && v`: true for arrays and plain objects,
false for `null` (which is excluded by the truthiness conjunct). -/
def isObjectTruthy : Value → Bool
  | varr _ => true
  | vobj _ => true
  | _ => false

/-- JavaScript truthiness. -/
def jsTruthy : Value → Bool
  | vundef => false
  | vnull => false
  | vbool b => b
  | vnum n => n != 0
  | vstr s => s ≠ ""
  | varr _ => true
  | vobj _ => true

/-- `objtools.isScalar`: not an array and not a plain object. -/
def isScalar : Value → Bool
  | varr _ => false
  | vobj _ => false
  | _ => true

end Value

open Value

mutual
/-- Structural (boolean) equality of values. -/
def valueBEq : Value → Value → Bool
  | .vundef, .vundef => true
  | .vnull, .vnull => true
  | .vbool a, .vbool b => a == b
  | .vnum a, .vnum b => a == b
  | .vstr a, .vstr b => a == b
  | .varr xs, .varr ys => valueListBEq xs ys
  | .vobj fs, .vobj gs => valueFieldsBEq fs gs
  | _, _ => false

/-- Structural equality of value lists. -/
def valueListBEq : List Value → List Value → Bool
  | [], [] => true
  | x :: xs, y :: ys => valueBEq x y && valueListBEq xs ys
  | _, _ => false

/-- Structural equality of field lists. -/
def valueFieldsBEq : List (String × Value) → List (String × Value) → Bool
  | [], [] => true
  | (k, x) :: xs, (l, y) :: ys => k == l && valueBEq x y && valueFieldsBEq xs ys
  | _, _ => false
end

theorem valueBEqAll : ∀ (n : Nat),
    (∀ a b, sizeOf a ≤ n → (valueBEq a b = true ↔ a = b)) ∧
    (∀ xs ys : List Value, sizeOf xs ≤ n → (valueListBEq xs ys = true ↔ xs = ys)) ∧
    (∀ fs gs : List (String × Value), sizeOf fs ≤ n →
      (valueFieldsBEq fs gs = true ↔ fs = gs)) := by
  intro n
  induction n with
  | zero =>
    refine ⟨?_, ?_, ?_⟩
    · intro a b ha; cases a <;> simp at ha
    · intro xs ys ha; cases xs <;> simp at ha
    · intro fs gs ha; cases fs <;> simp at ha
  | succ n ih =>
    obtain ⟨ih1, ih2, ih3⟩ := ih
    refine ⟨?_, ?_, ?_⟩
    · intro a b ha
      cases a <;> cases b <;> simp [valueBEq]
      case varr.varr xs ys =>
        have hb : sizeOf xs ≤ n := by simp at ha; omega
        exact ih2 xs ys hb
      case vobj.vobj fs gs =>
        have hb : sizeOf fs ≤ n := by simp at ha; omega
        exact ih3 fs gs hb
    · intro xs ys ha
      cases xs <;> cases ys <;> simp [valueListBEq]
      case cons.cons x xs y ys =>
        have h1 : sizeOf x ≤ n := by simp at ha; omega
        have h2 : sizeOf xs ≤ n := by simp at ha; omega
        rw [ih1 x y h1, ih2 xs ys h2]
    · intro fs gs ha
      cases fs <;> cases gs <;> simp [valueFieldsBEq]
      case cons.cons f fs g gs =>
        obtain ⟨k, x⟩ := f
        obtain ⟨l, y⟩ := g
        have h1 : sizeOf x ≤ n := by simp at ha; omega
        have h2 : sizeOf fs ≤ n := by simp at ha; omega
        simp [valueFieldsBEq, ih1 x y h1, ih3 fs gs h2]

instance : DecidableEq Value := fun a b =>
  decidable_of_iff (valueBEq a b = true) ((valueBEqAll (sizeOf a)).1 a b le_rfl)

mutual
/-- JavaScript default string conversion `String(v)` / `'' + v`. -/
def jsToString : Value → String
  | .vundef => "undefined"
  | .vnull => "null"
  | .vbool b => if b then "true" else "false"
  | .vnum n => toString n
  | .vstr s => s
  | .varr xs => jsArrToString xs
  | .vobj _ => "[object Object]"

/-- `Array.prototype.toString`: elements joined by `','`, with `null` and
`undefined` elements rendered as the empty string. -/
def jsArrToString : List Value → String
  | [] => ""
  | [x] => jsElemToString x
  | x :: rest => jsElemToString x ++ "," ++ jsArrToString rest

/-- One array element under `Array.prototype.join`. -/
def jsElemToString : Value → String
  | .vundef => ""
  | .vnull => ""
  | v => jsToString v
end

/-- Decimal digits to a natural number. -/
def digitsToNat (l : List Char) : Nat :=
  l.foldl (fun acc c => acc * 10 + (c.toNat - '0'.toNat)) 0

/-- Decimal value of a digit string. -/
def strToNatM (s : String) : Nat := digitsToNat s.toList

/-- Whether a string consists only of decimal digits. -/
def allDigits (s : String) : Bool :=
  s ≠ "" && s.toList.all (·.isDigit)

/-- Conversion of a (non-empty) string to a number as used by `isNaN` and
`parseFloat` on the integer fragment: an optional sign followed by digits.
Strings outside this fragment do not convert. -/
def jsStrToNum (s : String) : Option Int :=
  match s.toList with
  | '-' :: rest => if rest ≠ [] && rest.all (·.isDigit) then
      some (-(digitsToNat rest : Int)) else none
  | '+' :: rest => if rest ≠ [] && rest.all (·.isDigit) then
      some ((digitsToNat rest : Int)) else none
  | l => if l ≠ [] && l.all (·.isDigit) then some ((digitsToNat l : Int)) else none

/-- JavaScript strict equality `===` between an input value and a schema
`enum` member.  Primitives compare structurally; objects and arrays compare
by reference identity, and values of different provenance (a caller value
vs. a schema literal) are therefore never equal. -/
def jsStrictEq (v w : Value) : Bool :=
  match v, w with
  | .vundef, .vundef => true
  | .vnull, .vnull => true
  | .vbool a, .vbool b => a == b
  | .vnum a, .vnum b => a == b
  | .vstr a, .vstr b => a == b
  | _, _ => false

/-- Model of `String.prototype.toLowerCase` (characterwise lowering). -/
def jsToLower (s : String) : String :=
  String.mk (s.toList.map Char.toLower)

/-- `SchemaType.checkEnum`: `validValues.indexOf(value) !== -1`. -/
def checkEnum (v : Value) (validValues : List Value) : Bool :=
  validValues.any (jsStrictEq v)

mutual
/-- A canonical serialization of a value, used below to model the host
content-hash primitive. -/
def canonicalSerialize : Value → String
  | .vundef => "u"
  | .vnull => "z"
  | .vbool b => if b then "b1" else "b0"
  | .vnum n => "n" ++ toString n
  | .vstr s => "s" ++ toString s.length ++ ":" ++ s
  | .varr xs => "a[" ++ canonicalSerializeList xs ++ "]"
  | .vobj fs => "o\x7b" ++ canonicalSerializeFields fs ++ "\x7d"

def canonicalSerializeList : List Value → String
  | [] => ""
  | x :: rest => canonicalSerialize x ++ ";" ++ canonicalSerializeList rest

def canonicalSerializeFields : List (String × Value) → String
  | [] => ""
  | (k, v) :: rest =>
    toString k.length ++ ":" ++ k ++ "=" ++ canonicalSerialize v ++ ";" ++
      canonicalSerializeFields rest
end

/-- Model of `objtools.objectHash`: a deterministic string digest of a
structured value.  The digest is modelled as a tagged canonical
serialization (deterministic, and collision-free in the model). -/
def objectHash (v : Value) : String :=
  "H:" ++ canonicalSerialize v

/-- One step of `objtools.getPath`: read one field of a container.  Plain
objects are indexed by key, arrays by decimal index; any other value (or a
missing key) yields `undefined`. -/
def getPathStep (v : Value) (k : String) : Value :=
  match v with
  | .vobj fs => ((fs.find? (fun p => p.1 == k)).map (·.2)).getD .vundef
  | .varr xs =>
    if allDigits k then (xs.getD (strToNatM k) .vundef) else .vundef
  | _ => (.vundef)

/-- Model of `objtools.getPath obj path`: walk a dot-separated path. -/
def getPath (v : Value) (path : String) : Value :=
  (path.splitOn ".").foldl getPathStep v

mutual
/-- Model of `JSON.stringify` restricted to the embedded value universe:
`undefined` has no JSON encoding (the host returns `undefined`), object
fields with `undefined` values are omitted, `undefined` array elements
are encoded as `null`. -/
def stringifyJson : Value → Option String
  | .vundef => none
  | .vnull => some "null"
  | .vbool b => some (if b then "true" else "false")
  | .vnum n => some (toString n)
  | .vstr s => some (jsonQuote s)
  | .varr xs => some ("[" ++ stringifyJsonList xs ++ "]")
  | .vobj fs => some ("\x7b" ++ stringifyJsonFields fs ++ "\x7d")

def stringifyJsonList : List Value → String
  | [] => ""
  | [x] => (stringifyJson x).getD "null"
  | x :: rest => (stringifyJson x).getD "null" ++ "," ++ stringifyJsonList rest

def stringifyJsonFields : List (String × Value) → String
  | [] => ""
  | (k, v) :: rest =>
    match stringifyJson v with
    | none => stringifyJsonFields rest
    | some enc =>
      let entry := jsonQuote k ++ ":" ++ enc
      match rest with
      | [] => entry
      | _ =>
        let restEnc := stringifyJsonFields rest
        if restEnc = "" then entry else entry ++ "," ++ restEnc

/-- JSON string literal quoting (escaping the characters JSON requires). -/
def jsonQuote (s : String) : String :=
  "\x22" ++ String.join (s.toList.map (fun c =>
    if c = '\x22' then "\\\x22"
    else if c = '\\' then "\\\\"
    else if c = '\n' then "\\n"
    else if c = '\t' then "\\t"
    else if c = '\r' then "\\r"
    else String.singleton c)) ++ "\x22"
end

/-- Result of one step of the JSON parser: the parsed value and the
remaining input. -/
structure JsonStep where
  val : Value
  rest : List Char
deriving Repr

/-- Skip JSON whitespace. -/
def jsonSkipWs : List Char → List Char
  | c :: rest => if c = ' ' ∨ c = '\n' ∨ c = '\t' ∨ c = '\r' then jsonSkipWs rest else c :: rest
  | [] => []

/-- Parse a JSON string body up to the closing quote (handling the common
escapes; `\u` escapes are outside the model). -/
def jsonParseStrBody (fuel : Nat) (cs : List Char) (acc : List Char) :
    Option (String × List Char) :=
  match fuel with
  | 0 => none
  | fuel + 1 =>
    match cs with
    | [] => none
    | '\x22' :: rest => some (String.mk acc.reverse, rest)
    | '\\' :: e :: rest =>
      let dec : Option Char :=
        if e = '\x22' then some '\x22'
        else if e = '\\' then some '\\'
        else if e = '/' then some '/'
        else if e = 'n' then some '\n'
        else if e = 't' then some '\t'
        else if e = 'r' then some '\r'
        else none
      match dec with
      | some c => jsonParseStrBody fuel rest (c :: acc)
      | none => none
    | c :: rest => jsonParseStrBody fuel rest (c :: acc)

/-- Take a maximal run of decimal digits. -/
def takeDigits : List Char → (List Char × List Char)
  | [] => ([], [])
  | c :: rest =>
    if c.isDigit then
      let (ds, rem) := takeDigits rest
      (c :: ds, rem)
    else ([], c :: rest)

mutual
/-- Model of `JSON.parse` (fuel-indexed recursive descent) on the embedded
value universe: literals, integer numbers, strings, arrays and objects.
Fractional and exponent number forms are outside the model. -/
def jsonParseVal (fuel : Nat) (cs : List Char) : Option JsonStep :=
  match fuel with
  | 0 => none
  | fuel + 1 =>
    match jsonSkipWs cs with
    | 'n' :: 'u' :: 'l' :: 'l' :: rest => some ⟨.vnull, rest⟩
    | 't' :: 'r' :: 'u' :: 'e' :: rest => some ⟨.vbool true, rest⟩
    | 'f' :: 'a' :: 'l' :: 's' :: 'e' :: rest => some ⟨.vbool false, rest⟩
    | '\x22' :: rest =>
      (jsonParseStrBody (rest.length + 1) rest []).map fun (s, rem) => ⟨.vstr s, rem⟩
    | '[' :: rest =>
      (match jsonSkipWs rest with
       | ']' :: rem => some ⟨.varr [], rem⟩
       | _ => (jsonParseArrItems fuel rest).map fun (xs, rem) => ⟨.varr xs, rem⟩)
    | '{' :: rest =>
      (match jsonSkipWs rest with
       | '}' :: rem => some ⟨.vobj [], rem⟩
       | _ => (jsonParseObjItems fuel rest).map fun (fs, rem) => ⟨.vobj fs, rem⟩)
    | '-' :: rest =>
      (match takeDigits rest with
       | ([], _) => none
       | (ds, rem) => some ⟨.vnum (-(digitsToNat ds : Int)), rem⟩)
    | c :: rest =>
      if c.isDigit then
        (match takeDigits (c :: rest) with
         | (ds, rem) => some ⟨.vnum ((digitsToNat ds : Int)), rem⟩)
      else none
    | [] => none

def jsonParseArrItems (fuel : Nat) (cs : List Char) :
    Option (List Value × List Char) :=
  match fuel with
  | 0 => none
  | fuel + 1 => do
    let step ← jsonParseVal fuel cs
    match jsonSkipWs step.rest with
    | ',' :: rest => do
      let (xs, rem) ← jsonParseArrItems fuel rest
      pure (step.val :: xs, rem)
    | ']' :: rest => pure ([step.val], rest)
    | _ => none

def jsonParseObjItems (fuel : Nat) (cs : List Char) :
    Option (List (String × Value) × List Char) :=
  match fuel with
  | 0 => none
  | fuel + 1 =>
    match jsonSkipWs cs with
    | '\x22' :: rest => do
      let (k, rem) ← jsonParseStrBody (rest.length + 1) rest []
      match jsonSkipWs rem with
      | ':' :: rem2 => do
        let step ← jsonParseVal fuel rem2
        match jsonSkipWs step.rest with
        | ',' :: rem3 => do
          let (fs, rem4) ← jsonParseObjItems fuel rem3
          pure ((k, step.val) :: fs, rem4)
        | '}' :: rem3 => pure ([(k, step.val)], rem3)
        | _ => none
      | _ => none
    | _ => none
end

/-- Model of `JSON.parse s`: parse a complete JSON document. -/
def parseJson (s : String) : Option Value := do
  let step ← jsonParseVal (s.length + 1) s.toList
  match jsonSkipWs step.rest with
  | [] => pure step.val
  | _ => none

/-- `FieldError`: one per rejected field (`details` omitted from the model). -/
structure FieldErr where
  code : String
  message : String
  field : String
deriving DecidableEq, Repr

/-- A thrown error that is not a `FieldError`/`ValidationError`: a host
`TypeError` (programming error) or a `SchemaError` raised while operating
on a value.  These propagate out of the engine unmodified. -/
inductive Crash where
  | typeError (message : String)
  | schemaError (message : String)
deriving DecidableEq, Repr

/-- The `keyField` parameter of an `arrayset` subschema: a single subfield
path or a list of subfield paths. -/
inductive KeyField where
  | single (f : String)
  | multi (fs : List String)
deriving Repr

mutual
/-- A canonical (already normalized) subschema node: a type-specific kind
together with the common per-node parameters.  `dflt` models the JS
`default` parameter with `vundef` standing for an absent default. -/
inductive Sch where
  | mk (kind : SchKind) (required : Bool) (dflt : Value)
      (enumVals : Option (List Value)) : Sch

/-- The type-specific part of a canonical subschema node, one constructor
per embedded schema type. -/
inductive SchKind where
  | str (minLength maxLength : Option Int) : SchKind
  | num (minV maxV : Option Int) : SchKind
  | bool : SchKind
  | mixed (serializeMixed : Bool) : SchKind
  | obj (props : List (String × Sch)) : SchKind
  | array (elements : Sch) : SchKind
  | arrset (elements : Sch) (keyField : Option KeyField) : SchKind
  | mapT (values : Sch) : SchKind
  | orT (alternatives : List Sch) : SchKind
end

namespace Sch

def kind : Sch → SchKind
  | .mk k _ _ _ => k

def required : Sch → Bool
  | .mk _ r _ _ => r

def dflt : Sch → Value
  | .mk _ _ d _ => d

def enumVals : Sch → Option (List Value)
  | .mk _ _ _ e => e

end Sch

/-- A plain node of the given kind: not required, no default, no enum. -/
def plain (k : SchKind) : Sch := .mk k false .vundef none

/-- `subschema.properties[pathComponent] || undefined`. -/
def lookupProp (props : List (String × Sch)) (k : String) : Option Sch :=
  (props.find? (fun p => p.1 == k)).map (·.2)

/-- `SchemaType.isContainer` resolved per embedded kind (the default
`_defaultIsContainer` of each type's constructor). -/
def kindIsContainer : SchKind → Bool
  | .obj _ => true
  | .array _ => true
  | .arrset _ _ => true
  | .mapT _ => true
  | .orT _ => true
  | _ => false

/-- The `encodeValue` helper of `SchemaTypeArraySet._getElementKey`:
`undefined` has no encoding, arrays encode elementwise joined by `'$'`
(with `undefined` items joined as the empty string), scalars stringify,
structured values reduce to a content hash. -/
def encodeValue : Value → Option String
  | .vundef => none
  | .varr xs =>
    some (String.intercalate "$" (xs.attach.map
      (fun x => (encodeValue x.1).getD "")))
  | .vobj fs => some (objectHash (.vobj fs))
  | v => some (jsToString v)
decreasing_by
  have := List.sizeOf_lt_of_mem x.2
  simp [Value.varr.sizeOf_spec]
  omega

/-- `SchemaTypeArraySet._getElementKey` (without the throw flag): the
element's identity string derived from `keyField`. -/
def getElementKey (kf : Option KeyField) (el : Value) : Option String :=
  match kf with
  | some (.multi fs) => encodeValue (.varr (fs.map (getPath el)))
  | some (.single f) => encodeValue (getPath el f)
  | none => encodeValue el

/-- Options recognized by `Schema.validate`. -/
structure ValOpts where
  allowUnknownFields : Bool
  allowMissingFields : Bool
deriving Repr

def defaultValOpts : ValOpts := ⟨false, false⟩

/-- Options recognized by `Schema.normalize`. -/
structure NormOpts where
  allowUnknownFields : Bool
  allowMissingFields : Bool
  removeUnknownFields : Bool
  ignoreDefaults : Bool
  serialize : Bool
deriving Repr

def defaultNormOpts : NormOpts := ⟨false, false, false, false, false⟩

/-- `{ allowUnknownFields: true }` as passed by the or-type resolver's last
normalize probe. -/
def allowUnknownNormOpts : NormOpts := ⟨true, false, false, false, false⟩

/-- An un-fielded `FieldError` as thrown by the shallow type operations
(the field path is stamped on by the traversal handlers). -/
def ferr (code message : String) : FieldErr := ⟨code, message, ""⟩

/-- `removeArrayUndefinedValues`: compact an array in place, dropping
`undefined` elements and preserving relative order. -/
def removeArrayUndefinedValues (xs : List Value) : List Value :=
  xs.filter (fun v => !v.isUndef)

/-- The element check of `SchemaTypeArray.validate`: arrays may not contain
`undefined` elements. -/
def arrayValidateElems : List Value → Option FieldErr
  | [] => none
  | el :: rest =>
    if el.isUndef then some (ferr "invalid" "Arrays may not contain undefined elements")
    else arrayValidateElems rest

/-- The element check of `SchemaTypeArraySet.validate`: no `undefined`
elements, and every element must have a computed key. -/
def arrsetValidateElems (kf : Option KeyField) : List Value → Option FieldErr
  | [] => none
  | el :: rest =>
    if el.isUndef then some (ferr "invalid" "Arrays may not contain undefined elements")
    else if (getElementKey kf el).isNone then
      some (ferr "invalid" "ArraySet element has no key")
    else arrsetValidateElems kf rest

/-- The dedup pass of `SchemaTypeArraySet.normalize`: walk the array,
overwriting with `undefined` every element whose computed key was already
seen (`seenKeys` is the JS `Set`, which may hold `undefined`). -/
def arrsetMarkDups (kf : Option KeyField) (seen : List (Option String)) :
    List Value → List Value
  | [] => []
  | el :: rest =>
    let k := getElementKey kf el
    if seen.contains k then .vundef :: arrsetMarkDups kf seen rest
    else el :: arrsetMarkDups kf (k :: seen) rest

/-- `SchemaTypeString.normalize`: stringify, then check the length bounds
(the regular-expression `match` parameter is outside the model). -/
def strNormalize (minL maxL : Option Int) (v : Value) : Except FieldErr Value :=
  let strValue := jsToString v
  match maxL with
  | some mx =>
    if (strValue.length : Int) > mx then .error (ferr "too_long" "String is too long")
    else match minL with
      | some mn =>
        if (strValue.length : Int) < mn then .error (ferr "too_short" "String is too short")
        else .ok (.vstr strValue)
      | none => .ok (.vstr strValue)
  | none =>
    match minL with
    | some mn =>
      if (strValue.length : Int) < mn then .error (ferr "too_short" "String is too short")
      else .ok (.vstr strValue)
    | none => .ok (.vstr strValue)

/-- The range checks of `SchemaTypeNumber.normalize`. -/
def numRangeCheck (minV maxV : Option Int) (n : Int) : Except FieldErr Value :=
  match maxV with
  | some mx =>
    if n > mx then .error (ferr "too_large" "Too large")
    else match minV with
      | some mn => if n < mn then .error (ferr "too_small" "Too small") else .ok (.vnum n)
      | none => .ok (.vnum n)
  | none =>
    match minV with
    | some mn => if n < mn then .error (ferr "too_small" "Too small") else .ok (.vnum n)
    | none => .ok (.vnum n)

/-- `SchemaTypeNumber.normalize`: numbers pass through, non-empty numeric
strings parse, anything else fails (`Date` values are outside the model);
then the configured range is enforced. -/
def numNormalize (minV maxV : Option Int) (v : Value) : Except FieldErr Value :=
  match v with
  | .vnum n => numRangeCheck minV maxV n
  | .vstr s =>
    if s = "" then .error (ferr "invalid_type" "Must be a number")
    else match jsStrToNum s with
      | none => .error (ferr "invalid_type" "Must be a number")
      | some n => numRangeCheck minV maxV n
  | _ => .error (ferr "invalid_type" "Must be a number")

/-- The fixed truthy string vocabulary of `SchemaTypeBoolean`. -/
def trueStringSet : List String :=
  ["true", "t", "y", "yes", "1", "on", "totallydude"]

/-- The fixed falsy string vocabulary of `SchemaTypeBoolean`. -/
def falseStringSet : List String :=
  ["false", "f", "n", "no", "0", "off", "definitelynot"]

/-- `SchemaTypeBoolean.normalize`: booleans pass through, `0`/`1` coerce,
case-insensitive membership in the fixed vocabularies coerces, anything
else fails. -/
def boolNormalize (v : Value) : Except FieldErr Value :=
  match v with
  | .vbool b => .ok (.vbool b)
  | .vnum n =>
    if n = 0 ∨ n = 1 then .ok (.vbool (n == 1))
    else .error (ferr "invalid_type" "Must be boolean")
  | .vstr s =>
    let lower := jsToLower s
    if trueStringSet.contains lower then .ok (.vbool true)
    else if falseStringSet.contains lower then .ok (.vbool false)
    else .error (ferr "invalid_type" "Must be boolean")
  | _ => .error (ferr "invalid_type" "Must be boolean")

/-- `SchemaTypeMixed.normalize`: passthrough unless `serializeMixed` is
set, in which case the value is JSON-encoded when serializing and strings
are JSON-decoded otherwise. -/
def mixedNormalize (serializeMixed serializeOpt : Bool) (v : Value) :
    Except FieldErr Value :=
  if serializeMixed then
    if serializeOpt then
      match v with
      | .vstr _ => .error (ferr "invalid_type" "Mixed type value must not be a string")
      | _ =>
        match stringifyJson v with
        | some s => .ok (.vstr s)
        | none => .ok .vundef
    else
      match v with
      | .vstr s =>
        match parseJson s with
        | some p => .ok p
        | none => .error (ferr "invalid_format" "cannot parse string")
      | _ => .ok v
  else .ok v

/-- The per-type shallow `normalize` operation (never recurses; recursion
is the transform engine's job).  The `or` type inherits the base class
no-op. -/
def shallowNormalize (opts : NormOpts) (sch : Sch) (v : Value) :
    Except FieldErr Value :=
  match sch.kind with
  | .obj _ =>
    if v.isPlainObject then .ok v else .error (ferr "invalid_type" "Must be an object")
  | .mapT _ =>
    if v.isPlainObject then .ok v else .error (ferr "invalid_type" "Must be an object")
  | .array _ =>
    match v with
    | .varr xs =>
      let xs' := removeArrayUndefinedValues xs
      match arrayValidateElems xs' with
      | some e => .error e
      | none => .ok (.varr xs')
    | _ => .error (ferr "invalid_type" "Must be an array")
  | .arrset _ kf =>
    match v with
    | .varr xs =>
      let xs' := removeArrayUndefinedValues (arrsetMarkDups kf [] xs)
      match arrsetValidateElems kf xs' with
      | some e => .error e
      | none => .ok (.varr xs')
    | _ => .error (ferr "invalid_type" "Must be an array")
  | .orT _ => .ok v
  | .str minL maxL => strNormalize minL maxL v
  | .num minV maxV => numNormalize minV maxV v
  | .bool => boolNormalize v
  | .mixed sm => mixedNormalize sm opts.serialize v

/-- The per-type shallow `validate` operation.  Containers check shape
only; primitives check the exact type and then defer to their own
`normalize` (the `SchemaTypePrimitive.validate` pattern); `or` is a no-op;
`mixed` defers to its `normalize` directly (with no serialize option, as
validate options carry none). -/
def shallowValidate (sch : Sch) (v : Value) : Option FieldErr :=
  match sch.kind with
  | .obj _ =>
    if v.isPlainObject then none else some (ferr "invalid_type" "Must be an object")
  | .mapT _ =>
    if v.isPlainObject then none else some (ferr "invalid_type" "Must be an object")
  | .array _ =>
    match v with
    | .varr xs => arrayValidateElems xs
    | _ => some (ferr "invalid_type" "Must be an array")
  | .arrset _ kf =>
    match v with
    | .varr xs => arrsetValidateElems kf xs
    | _ => some (ferr "invalid_type" "Must be an array")
  | .orT _ => none
  | .str minL maxL =>
    match v with
    | .vstr _ =>
      match strNormalize minL maxL v with
      | .ok _ => none
      | .error e => some e
    | _ => some (ferr "invalid_type" "Must be a string")
  | .num minV maxV =>
    match v with
    | .vnum _ =>
      match numNormalize minV maxV v with
      | .ok _ => none
      | .error e => some e
    | _ => some (ferr "invalid_type" "Must be a number")
  | .bool =>
    match v with
    | .vbool _ => none
    | _ => some (ferr "invalid_type" "Must be a boolean")
  | .mixed sm =>
    match mixedNormalize sm false v with
    | .ok _ => none
    | .error e => some e

/-- Handler-visible state threaded through a traversal: the accumulated
`FieldError`s plus an auxiliary visit log (used by instrumenting handlers;
the engine itself never touches it). -/
structure St where
  errors : List FieldErr
  trace : List String
deriving DecidableEq, Repr

def stEmpty : St := ⟨[], []⟩

/-- The tagged result of a transform `onField` handler: an ordinary
replacement value, the stop sentinel, or the stop-and-set sentinel
(`Schema.stopTransform` / `Schema.setAndStopTransform`). -/
inductive TrRes where
  | cont (v : Value)
  | stop
  | stopSet (v : Value)
deriving Repr

/-- Transform handler set (`TransformHandlers`): `onField` and
`onUnknownField` are modelled as total state-passing functions, `postField`
is optional as in the source. -/
structure Handlers where
  onField : String → Value → Sch → St → St × TrRes
  onUnknownField : String → Value → St → St × Value
  postField : Option (String → Value → Sch → St → St × Value)

/-- Read-traversal handler set (`TraverseHandlers`): `onField` returns
`false` to prune descent. -/
structure TravHandlers where
  onField : String → Value → Sch → St → St × Bool
  onUnknownField : String → Value → St → St

/-- `field ? (field + '.' + k) : k`. -/
def joinField (field sub : String) : String :=
  if field = "" then sub else field ++ "." ++ sub

/-- `Normalizer.onField`. -/
def normalizerOnField (opts : NormOpts) (field : String) (v : Value)
    (sch : Sch) (st : St) : St × TrRes :=
  let v := if v.isNullish && !sch.dflt.isUndef && !sch.dflt.isNull
      && !opts.ignoreDefaults then sch.dflt else v
  if v.isNullish then
    if sch.required && !opts.allowMissingFields then
      ({ st with errors := st.errors ++ [⟨"required", "Field is required", field⟩] },
        .cont .vundef)
    else (st, .cont v)
  else
    match shallowNormalize opts sch v with
    | .error e =>
      ({ st with errors := st.errors ++ [{ e with field := field }] }, .cont .vundef)
    | .ok v' =>
      match sch.enumVals with
      | some es =>
        if checkEnum v' es then (st, .cont v')
        else ({ st with errors := st.errors ++ [⟨"unrecognized", "Unrecognized value", field⟩] },
          .cont .vundef)
      | none => (st, .cont v')

/-- `Normalizer.onUnknownField`. -/
def normalizerOnUnknownField (opts : NormOpts) (field : String) (v : Value)
    (st : St) : St × Value :=
  if opts.removeUnknownFields then (st, .vundef)
  else if !opts.allowUnknownFields then
    ({ st with errors := st.errors ++ [⟨"unknown_field", "Unknown field", field⟩] }, v)
  else (st, v)

/-- The `Normalizer` handler set plugged into `Schema.transform` by
`Schema.normalize`. -/
def normalizerHandlers (opts : NormOpts) : Handlers :=
  ⟨normalizerOnField opts, normalizerOnUnknownField opts, none⟩

/-- `Validator.onField`: applies a non-null default before the
required/enum/shallow-validate checks; returns `false` (pruning descent)
exactly when the shallow validate threw a `FieldError`. -/
def validatorOnField (opts : ValOpts) (field : String) (v : Value)
    (sch : Sch) (st : St) : St × Bool :=
  let v := if v.isNullish && !sch.dflt.isUndef && !sch.dflt.isNull then sch.dflt else v
  if v.isNullish then
    if sch.required && !opts.allowMissingFields then
      ({ st with errors := st.errors ++ [⟨"required", "Field is required", field⟩] }, true)
    else (st, true)
  else
    let enumFail := match sch.enumVals with
      | some es => !checkEnum v es
      | none => false
    if enumFail then
      ({ st with errors := st.errors ++ [⟨"unrecognized", "Unrecognized value", field⟩] }, true)
    else
      match shallowValidate sch v with
      | some e => ({ st with errors := st.errors ++ [{ e with field := field }] }, false)
      | none => (st, true)

/-- `Validator.onUnknownField`. -/
def validatorOnUnknownField (opts : ValOpts) (field : String) (_v : Value)
    (st : St) : St :=
  if !opts.allowUnknownFields then
    { st with errors := st.errors ++ [⟨"unknown_field", "Unknown field", field⟩] }
  else st

/-- The `Validator` handler set plugged into `Schema.traverse` by
`Schema.validate`. -/
def validatorHandlers (opts : ValOpts) : TravHandlers :=
  ⟨validatorOnField opts, validatorOnUnknownField opts⟩

/-- `Object.keys(value)` as used by the object/map subfield listing
(`typeof value === 'object' && value`; array keys are the indices). -/
def objKeys : Value → List String
  | .vobj fs => fs.map (·.1)
  | .varr xs => (List.range xs.length).map toString
  | _ => []

/-- `listValueSubfieldEntries` for object-keyed containers: the keys of the
value paired with `value[key]`. -/
def objEntries (v : Value) : List (String × Value) :=
  (objKeys v).map (fun k => (k, getPathStep v k))

/-- `listValueSubfieldEntries` for arrays: index strings paired with the
elements. -/
def arrEntries : Value → List (String × Value)
  | .varr xs => xs.enum.map (fun p => (toString p.1, p.2))
  | _ => []

/-- Replace the first binding of `k` (or append a new one), as JS
`value[field] = x` does on a plain object. -/
def setAssoc (fs : List (String × Value)) (k : String) (x : Value) :
    List (String × Value) :=
  if fs.any (fun p => p.1 == k) then
    fs.map (fun p => if p.1 == k then (p.1, x) else p)
  else fs ++ [(k, x)]

/-- `SchemaTypeObject.setValueSubfield`: set the field, or `delete` it when při
the new value is `undefined`; no-op on non-containers. -/
def objSetFieldV (v : Value) (k : String) (x : Value) : Value :=
  match v with
  | .vobj fs =>
    if x.isUndef then .vobj (fs.filter (fun p => p.1 ≠ k))
    else .vobj (setAssoc fs k x)
  | .varr xs =>
    if allDigits k ∧ strToNatM k < xs.length then
      .varr (xs.set (strToNatM k) x)
    else v
  | _ => v

/-- `SchemaTypeMap.setValueSubfield`: unconditional `value[field] = x`
(an `undefined` value is stored, not deleted). -/
def mapSetFieldV (v : Value) (k : String) (x : Value) : Value :=
  match v with
  | .vobj fs => .vobj (setAssoc fs k x)
  | .varr xs =>
    if allDigits k ∧ strToNatM k < xs.length then .varr (xs.set (strToNatM k) x)
    else v
  | _ => v

/-- `SchemaTypeArray.setValueSubfield`: `value[parseInt(field)] = x`. -/
def arrSetFieldV (v : Value) (k : String) (x : Value) : Value :=
  match v with
  | .varr xs =>
    if allDigits k ∧ strToNatM k < xs.length then .varr (xs.set (strToNatM k) x)
    else v
  | _ => v

/-- `alternativesByTypeMatch[i]`: the alternatives whose score is `i`, in
declaration order. -/
def altsAtScore : List Sch → List Nat → Nat → List Sch
  | [], _, _ => []
  | _ :: _, [], _ => []
  | a :: as, s :: ss, i =>
    if s = i then a :: altsAtScore as ss i else altsAtScore as ss i

theorem sizeOf_list_pos (l : List Sch) : 1 ≤ sizeOf l := by
  cases l with
  | nil => simp
  | cons a rest => simp; omega

theorem sizeOf_altsAtScore (as : List Sch) (ss : List Nat) (i : Nat) :
    sizeOf (altsAtScore as ss i) ≤ sizeOf as := by
  induction as generalizing ss with
  | nil => simp [altsAtScore]
  | cons a rest ih =>
    cases ss with
    | nil =>
      simp only [altsAtScore]
      have := sizeOf_list_pos rest
      simp
      omega
    | cons s ss' =>
      simp only [altsAtScore]
      by_cases h : s = i
      · simp only [h, if_pos rfl]
        have := ih ss'
        simp
        omega
      · simp only [if_neg h]
        have := ih ss'
        have h2 := sizeOf_list_pos rest
        simp
        omega

theorem sizeOf_lookupProp {props : List (String × Sch)} {k : String} {c : Sch}
    (h : lookupProp props k = some c) : 1 + sizeOf c < sizeOf props := by
  unfold lookupProp at h
  cases hf : props.find? (fun p => p.1 == k) with
  | none => simp [hf] at h
  | some p =>
    simp only [hf, Option.map_some] at h
    have hmem := List.mem_of_find?_eq_some hf
    have hs := List.sizeOf_lt_of_mem hmem
    cases p with
    | mk a b =>
      have hb : b = c := by simpa using h
      subst hb
      have hps : sizeOf (a, b) = 1 + sizeOf a + sizeOf b := by simp
      omega

theorem sizeOf_mem_sch {alts : List Sch} {a : Sch} (h : a ∈ alts) :
    1 + sizeOf a ≤ sizeOf alts := by
  have := List.sizeOf_lt_of_mem h
  omega

theorem altsAtScore_mem {as : List Sch} {ss : List Nat} {i : Nat} {s : Sch}
    (h : s ∈ altsAtScore as ss i) : s ∈ as := by
  induction as generalizing ss with
  | nil => simp [altsAtScore] at h
  | cons a rest ih =>
    cases ss with
    | nil => simp [altsAtScore] at h
    | cons sc ss' =>
      simp only [altsAtScore] at h
      by_cases hsi : sc = i
      · simp only [if_pos hsi] at h
        rcases List.mem_cons.mp h with rfl | hm
        · exact List.mem_cons_self _ _
        · exact List.mem_cons_of_mem _ (ih hm)
      · simp only [if_neg hsi] at h
        exact List.mem_cons_of_mem _ (ih h)

/-- The head of a list together with a membership proof (used to carry the
size bound required for termination of the mutually recursive engine). -/
def headWithMem (l : List Sch) : Option {s : Sch // s ∈ l} :=
  match l with
  | [] => none
  | a :: rest => some ⟨a, List.mem_cons_self a rest⟩

/-- An alternative together with the size bound its membership implies
(termination artifact of the engine's recursion). -/
def AltOf (alts : List Sch) := {s : Sch // sizeOf s < sizeOf alts}

set_option maxHeartbeats 1000000

/-- Weaken a bucket membership into the size bound on the full alternative
list (termination artifact). -/
def liftAlt {alts bucket : List Sch} (hb : ∀ s ∈ bucket, s ∈ alts) :
    Option {s : Sch // s ∈ bucket} → Option (AltOf alts) :=
  Option.map (fun s => ⟨s.1, List.sizeOf_lt_of_mem (hb s.1 s.2)⟩)

/-- `alternatives[0]` with its size bound (termination artifact). -/
def headAlt (alts : List Sch) : Option (AltOf alts) :=
  (headWithMem alts).map (fun s => ⟨s.1, List.sizeOf_lt_of_mem s.2⟩)

/-- `tiebreakers[0]` / `bucket[0]` with its size bound (termination
artifact). -/
def headAltOf {alts : List Sch} (bucket : List Sch)
    (hb : ∀ s ∈ bucket, s ∈ alts) : Option (AltOf alts) :=
  liftAlt hb (headWithMem bucket)

mutual

/-- `SchemaType.checkTypeMatch` per embedded kind.  Containers score 1 on a
shape match; `string`/`number` have exact scoring overrides; `boolean`
calls `value.toLowerCase()` on anything that is not a boolean, `0`/`1` or a
string, which throws a host `TypeError`; `mixed` always scores 0; `or`
scores the maximum of its alternatives. -/
def cmS (sch : Sch) (v : Value) : Except Crash Nat :=
  match sch with
  | .mk (.obj _) _ _ _ => pure (if v.isPlainObject then 1 else 0)
  | .mk (.mapT _) _ _ _ => pure (if v.isPlainObject then 1 else 0)
  | .mk (.array _) _ _ _ => pure (if v.isArray then 1 else 0)
  | .mk (.arrset _ _) _ _ _ => pure (if v.isArray then 1 else 0)
  | .mk (.str _ _) _ _ _ =>
    pure (match v with
      | .vstr _ => 3
      | .vobj _ => 0
      | .varr _ => 0
      | _ => 2)
  | .mk (.num _ _) _ _ _ =>
    pure (match v with
      | .vnum _ => 3
      | .vstr s => if s ≠ "" ∧ (jsStrToNum s).isSome then 2 else 0
      | _ => 0)
  | .mk .bool _ _ _ =>
    match v with
    | .vbool _ => pure 3
    | .vnum n =>
      if n = 0 ∨ n = 1 then pure 2
      else .error (.typeError "value.toLowerCase is not a function")
    | .vstr s =>
      pure (if falseStringSet.contains (jsToLower s) ∨ trueStringSet.contains (jsToLower s)
        then 2 else 0)
    | _ => .error (.typeError "value.toLowerCase is not a function")
  | .mk (.mixed _) _ _ _ => pure 0
  | .mk (.orT alts) _ _ _ => do
    let scores ← cmList alts v
    pure (scores.foldl max 0)
termination_by (10 * sizeOf sch, 0)

/-- The alternative-scoring loop of `SchemaTypeOr`: each alternative's
`checkTypeMatch`, in declaration order (a throw aborts the loop). -/
def cmList (alts : List Sch) (v : Value) : Except Crash (List Nat) :=
  match alts with
  | [] => pure []
  | a :: rest => do
    let m ← cmS a v
    let ms ← cmList rest v
    pure (m :: ms)
termination_by (10 * sizeOf alts + 1, 0)

/-- Tie-break stage (a) of `SchemaTypeOr._matchAlternative`: the first tied
alternative whose strict full `validate` succeeds (a `ValidationError`
moves on to the next candidate; any other throw propagates). -/
def tbFindValidate (lst : List Sch) (v : Value) :
    Except Crash (Option {s : Sch // s ∈ lst}) :=
  match lst with
  | [] => pure none
  | alt :: rest => do
    let errs ← validateFull defaultValOpts alt v
    if errs.isEmpty then pure (some ⟨alt, List.mem_cons_self alt rest⟩)
    else do
      let r ← tbFindValidate rest v
      pure (r.map (fun s => ⟨s.1, List.mem_cons_of_mem alt s.2⟩))
termination_by (10 * sizeOf lst + 3, 0)

/-- Tie-break stages (b)/(c) of `SchemaTypeOr._matchAlternative`: the first
tied alternative whose full `normalize` succeeds against a deep copy of
the value (deep copying is the identity in the value model). -/
def tbFindNormalize (opts : NormOpts) (lst : List Sch) (v : Value) :
    Except Crash (Option {s : Sch // s ∈ lst}) :=
  match lst with
  | [] => pure none
  | alt :: rest => do
    let r ← normalizeFull opts alt v
    if r.1.isEmpty then pure (some ⟨alt, List.mem_cons_self alt rest⟩)
    else do
      let r' ← tbFindNormalize opts rest v
      pure (r'.map (fun s => ⟨s.1, List.mem_cons_of_mem alt s.2⟩))
termination_by (10 * sizeOf lst + 3, 0)

/-- The tie-break cascade of `SchemaTypeOr._matchAlternative` on a bucket
of equally scored alternatives: (a) first to strictly validate, (b) first
to normalize a copy, (c) first to normalize a copy with unknown fields
allowed, (d) the first tied alternative. -/
def matchTiebreak (alts : List Sch) (tb : List Sch)
    (htb : ∀ s ∈ tb, s ∈ alts) (v : Value) :
    Except Crash (Option (AltOf alts)) := do
  match ← tbFindValidate tb v with
  | some s => pure (liftAlt htb (some s))
  | none =>
    match ← tbFindNormalize defaultNormOpts tb v with
    | some s => pure (liftAlt htb (some s))
    | none =>
      match ← tbFindNormalize allowUnknownNormOpts tb v with
      | some s => pure (liftAlt htb (some s))
      | none => pure (headAltOf tb htb)
termination_by (10 * sizeOf tb + 3, 1)

/-- `SchemaTypeOr._matchAlternative`: bucket the alternatives by score;
return a unique holder of the highest nonzero score, tie-break a shared
highest nonzero score, and fall back to the first alternative when every
alternative scores 0 (`undefined` when there are none). -/
def matchAlternative (alts : List Sch) (v : Value) :
    Except Crash (Option (AltOf alts)) := do
  let scores ← cmList alts v
  let b3 := altsAtScore alts scores 3
  let b2 := altsAtScore alts scores 2
  let b1 := altsAtScore alts scores 1
  if b3.length = 1 then pure (headAltOf b3 (fun _ hs => altsAtScore_mem hs))
  else if b3.length ≥ 2 then
    matchTiebreak alts b3 (fun _ hs => altsAtScore_mem hs) v
  else if b2.length = 1 then pure (headAltOf b2 (fun _ hs => altsAtScore_mem hs))
  else if b2.length ≥ 2 then
    matchTiebreak alts b2 (fun _ hs => altsAtScore_mem hs) v
  else if b1.length = 1 then pure (headAltOf b1 (fun _ hs => altsAtScore_mem hs))
  else if b1.length ≥ 2 then
    matchTiebreak alts b1 (fun _ hs => altsAtScore_mem hs) v
  else pure (headAlt alts)
termination_by (10 * sizeOf alts + 4, 0)
decreasing_by
  all_goals
    first
      | (apply Prod.Lex.left; omega)
      | (apply Prod.Lex.left
         have hb3 := sizeOf_altsAtScore alts scores 3
         have hb2 := sizeOf_altsAtScore alts scores 2
         have hb1 := sizeOf_altsAtScore alts scores 1
         omega)

/-- `Schema.validate`: a full read traversal with the `Validator` handler
set; the resulting `FieldError` list is nonempty exactly when the source
throws a `ValidationError`. -/
def validateFull (opts : ValOpts) (sch : Sch) (v : Value) :
    Except Crash (List FieldErr) := do
  let st ← traverseSV (validatorHandlers opts) v (some sch) "" stEmpty
  pure st.errors
termination_by (10 * sizeOf sch + 6, 0)

/-- `Schema.normalize`: a full transform with the `Normalizer` handler set;
the `FieldError` list is nonempty exactly when the source throws a
`ValidationError`, and the value is the normalized result. -/
def normalizeFull (opts : NormOpts) (sch : Sch) (v : Value) :
    Except Crash (List FieldErr × Value) := do
  let r ← transformSV (normalizerHandlers opts) v (some sch) "" stEmpty
  pure (r.1.errors, r.2)
termination_by (10 * sizeOf sch + 6, 0)

/-- `Schema._traverseSubschemaValue`: run `onField` when a subschema is
present (descending unless it returned `false` or the value is nullish),
`onUnknownField` when no subschema matches a defined value. -/
def traverseSV (h : TravHandlers) (v : Value) (sch? : Option Sch)
    (field : String) (st : St) : Except Crash St :=
  match sch? with
  | some sch =>
    let p := h.onField field v sch st
    if p.2 && !v.isNullish then schTraverse h sch v field p.1 else pure p.1
  | none => if !v.isUndef then pure (h.onUnknownField field v st) else pure st
termination_by ((match sch? with | none => 0 | some s => 10 * sizeOf s + 5), 0)

/-- The per-kind `traverse` dispatch: the default `SchemaType.traverse` for
object (with the declared-keys supplement), map and array, the element-key
override for array-set, the alternative-match override for `or`, and a
no-op for non-containers. -/
def schTraverse (h : TravHandlers) (sch : Sch) (v : Value) (field : String)
    (st : St) : Except Crash St :=
  match sch with
  | .mk (.obj props) _ _ _ => do
    let entries := objEntries v
    let st1 ← travFieldsObj h props entries field st
    travMissingObj h props props (entries.map (·.1)) field st1
  | .mk (.mapT valsch) _ _ _ => travElemsMap h valsch (objEntries v) field st
  | .mk (.array esch) _ _ _ => travElemsArr h esch (arrEntries v) field st
  | .mk (.arrset esch kf) _ _ _ =>
    match v with
    | .varr xs => travElemsArrset h esch kf xs field st
    | _ => pure st
  | .mk (.orT alts) _ _ _ => do
    match ← matchAlternative alts v with
    | some s => traverseSV h v (some s.1) field st
    | none => traverseSV h v none field st
  | _ => pure st
termination_by (10 * sizeOf sch + 4, 0)
decreasing_by
  all_goals simp_wf
  all_goals
    first
      | (apply Prod.Lex.left; omega)
      | (apply Prod.Lex.left
         have hs : sizeOf s.1 < sizeOf alts := s.2
         omega)

/-- The value-keyed pass of the default `traverse` for objects: visit each
of the value's own fields with `properties[key]` (or the unknown-field
handler). -/
def travFieldsObj (h : TravHandlers) (props : List (String × Sch))
    (entries : List (String × Value)) (field : String) (st : St) :
    Except Crash St :=
  match entries with
  | [] => pure st
  | (k, subv) :: rest => do
    let st' ← traverseSV h subv (lookupProp props k) (joinField field k) st
    travFieldsObj h props rest field st'
termination_by (10 * sizeOf props + 2, entries.length)
decreasing_by
  all_goals simp_wf
  all_goals
    first
      | (apply Prod.Lex.left; omega)
      | (apply Prod.Lex.left
         cases hl : lookupProp props k with
         | none => simp only [hl]; omega
         | some c =>
           have hlk := sizeOf_lookupProp hl
           simp only [hl]
           omega)
      | (apply Prod.Lex.right; simp)

/-- The declared-keys pass of the default `traverse` for objects: visit
schema-declared fields absent from the value with an `undefined` value. -/
def travMissingObj (h : TravHandlers) (props rem : List (String × Sch))
    (visited : List String) (field : String) (st : St) : Except Crash St :=
  match rem with
  | [] => pure st
  | (k, _) :: rest =>
    if visited.contains k then travMissingObj h props rest visited field st
    else do
      let st' ← traverseSV h .vundef (lookupProp props k) (joinField field k) st
      travMissingObj h props rest (visited ++ [k]) field st'
termination_by (10 * sizeOf props + 2, rem.length)
decreasing_by
  all_goals simp_wf
  all_goals
    first
      | (apply Prod.Lex.left; omega)
      | (apply Prod.Lex.left
         cases hl : lookupProp props k with
         | none => simp only [hl]; omega
         | some c =>
           have hlk := sizeOf_lookupProp hl
           simp only [hl]
           omega)
      | (apply Prod.Lex.right; simp)

/-- The element pass of the default `traverse` for maps: every value key
descends into the shared `values` subschema. -/
def travElemsMap (h : TravHandlers) (valsch : Sch)
    (entries : List (String × Value)) (field : String) (st : St) :
    Except Crash St :=
  match entries with
  | [] => pure st
  | (k, subv) :: rest => do
    let st' ← traverseSV h subv (some valsch) (joinField field k) st
    travElemsMap h valsch rest field st'
termination_by (10 * sizeOf valsch + 6, entries.length)

/-- The element pass of the default `traverse` for arrays: every index
descends into the `elements` subschema. -/
def travElemsArr (h : TravHandlers) (esch : Sch)
    (entries : List (String × Value)) (field : String) (st : St) :
    Except Crash St :=
  match entries with
  | [] => pure st
  | (k, subv) :: rest => do
    let st' ← traverseSV h subv (some esch) (joinField field k) st
    travElemsArr h esch rest field st'
termination_by (10 * sizeOf esch + 6, entries.length)

/-- `SchemaTypeArraySet.traverse`: every element of the array (duplicate
keys included) descends into the `elements` subschema, addressed by its
computed key. -/
def travElemsArrset (h : TravHandlers) (esch : Sch) (kf : Option KeyField)
    (xs : List Value) (field : String) (st : St) : Except Crash St :=
  match xs with
  | [] => pure st
  | el :: rest => do
    let key := (getElementKey kf el).getD "undefined"
    let st' ← traverseSV h el (some esch) (joinField field key) st
    travElemsArrset h esch kf rest field st'
termination_by (10 * sizeOf esch + 6, xs.length)

/-- `Schema._transformSubschemaValue`: run `onField`; a stop sentinel keeps
the original value and a stop-and-set sentinel installs its replacement,
both returning without descending and without `postField`; otherwise
descend into the (non-nullish) new value and finish with `postField`. -/
def transformSV (h : Handlers) (v : Value) (sch? : Option Sch)
    (field : String) (st : St) : Except Crash (St × Value) :=
  match sch? with
  | some sch =>
    let p := h.onField field v sch st
    match p.2 with
    | .stop => pure (p.1, v)
    | .stopSet w => pure (p.1, w)
    | .cont nv => do
      let r ← if !nv.isNullish then schTransform h sch nv field p.1
        else pure (p.1, nv)
      match h.postField with
      | some pf => pure (pf field r.2 sch r.1)
      | none => pure r
  | none =>
    if !v.isUndef then pure (h.onUnknownField field v st) else pure (st, v)
termination_by ((match sch? with | none => 0 | some s => 10 * sizeOf s + 5), 0)

/-- The per-kind `transform` dispatch: the default `SchemaType.transform`
for object (value pass, then declared-keys batch pass), map and array, the
map-and-compact override for array-set, the alternative-match override for
`or`, and the identity for non-containers. -/
def schTransform (h : Handlers) (sch : Sch) (v : Value) (field : String)
    (st : St) : Except Crash (St × Value) :=
  match sch with
  | .mk (.obj props) _ _ _ =>
    if v.jsTruthy then do
      let entries := objEntries v
      let (st1, cur) ← trFieldsObj h props entries field st v
      let (st2, batch) ← trMissingObj h props props (entries.map (·.1)) field st1 []
      pure (st2, batch.foldl (fun c p => objSetFieldV c p.1 p.2) cur)
    else pure (st, v)
  | .mk (.mapT valsch) _ _ _ =>
    if v.jsTruthy then trElemsMap h valsch (objEntries v) field st v
    else pure (st, v)
  | .mk (.array esch) _ _ _ =>
    if v.jsTruthy then trElemsArr h esch (arrEntries v) field st v
    else pure (st, v)
  | .mk (.arrset esch kf) _ _ _ =>
    match v with
    | .varr xs => do
      let (st1, results) ← trElemsArrset h esch kf xs field st
      pure (st1, .varr (results.filter (fun r => !r.isUndef)))
    | _ => pure (st, v)
  | .mk (.orT alts) _ _ _ => do
    match ← matchAlternative alts v with
    | some s => transformSV h v (some s.1) field st
    | none => transformSV h v none field st
  | _ => pure (st, v)
termination_by (10 * sizeOf sch + 4, 0)
decreasing_by
  all_goals simp_wf
  all_goals
    first
      | (apply Prod.Lex.left; omega)
      | (apply Prod.Lex.left
         have hs : sizeOf s.1 < sizeOf alts := s.2
         omega)

/-- The value-keyed pass of the default `transform` for objects: transform
each of the value's own fields and write the result back through the
object setter (deleting on `undefined`). -/
def trFieldsObj (h : Handlers) (props : List (String × Sch))
    (entries : List (String × Value)) (field : String) (st : St)
    (cur : Value) : Except Crash (St × Value) :=
  match entries with
  | [] => pure (st, cur)
  | (k, subv) :: rest => do
    let (st', nv) ← transformSV h subv (lookupProp props k) (joinField field k) st
    trFieldsObj h props rest field st' (objSetFieldV cur k nv)
termination_by (10 * sizeOf props + 2, entries.length)
decreasing_by
  all_goals simp_wf
  all_goals
    first
      | (apply Prod.Lex.left; omega)
      | (apply Prod.Lex.left
         cases hl : lookupProp props k with
         | none => simp only [hl]; omega
         | some c =>
           have hlk := sizeOf_lookupProp hl
           simp only [hl]
           omega)
      | (apply Prod.Lex.right; simp)

/-- The declared-keys pass of the default `transform` for objects:
transform schema-declared fields absent from the value (with an
`undefined` input) and collect the results for one batched write. -/
def trMissingObj (h : Handlers) (props rem : List (String × Sch))
    (visited : List String) (field : String) (st : St)
    (batch : List (String × Value)) : Except Crash (St × List (String × Value)) :=
  match rem with
  | [] => pure (st, batch)
  | (k, _) :: rest =>
    if visited.contains k then trMissingObj h props rest visited field st batch
    else do
      let (st', nv) ← transformSV h .vundef (lookupProp props k) (joinField field k) st
      trMissingObj h props rest (visited ++ [k]) field st' (batch ++ [(k, nv)])
termination_by (10 * sizeOf props + 2, rem.length)
decreasing_by
  all_goals simp_wf
  all_goals
    first
      | (apply Prod.Lex.left; omega)
      | (apply Prod.Lex.left
         cases hl : lookupProp props k with
         | none => simp only [hl]; omega
         | some c =>
           have hlk := sizeOf_lookupProp hl
           simp only [hl]
           omega)
      | (apply Prod.Lex.right; simp)

/-- The element pass of the default `transform` for maps: each value key is
transformed against the shared `values` subschema and written back
unconditionally (an `undefined` result is stored). -/
def trElemsMap (h : Handlers) (valsch : Sch)
    (entries : List (String × Value)) (field : String) (st : St)
    (cur : Value) : Except Crash (St × Value) :=
  match entries with
  | [] => pure (st, cur)
  | (k, subv) :: rest => do
    let (st', nv) ← transformSV h subv (some valsch) (joinField field k) st
    trElemsMap h valsch rest field st' (mapSetFieldV cur k nv)
termination_by (10 * sizeOf valsch + 6, entries.length)

/-- The element pass of the default `transform` for arrays: each index is
transformed against the `elements` subschema and written back positionally
(an `undefined` result leaves an `undefined` element). -/
def trElemsArr (h : Handlers) (esch : Sch)
    (entries : List (String × Value)) (field : String) (st : St)
    (cur : Value) : Except Crash (St × Value) :=
  match entries with
  | [] => pure (st, cur)
  | (k, subv) :: rest => do
    let (st', nv) ← transformSV h subv (some esch) (joinField field k) st
    trElemsArr h esch rest field st' (arrSetFieldV cur k nv)
termination_by (10 * sizeOf esch + 6, entries.length)

/-- `SchemaTypeArraySet.transform`, element pass: map every element
(duplicate keys included) through the per-field dispatch, addressed by its
computed key; the caller drops `undefined` results and writes the
compacted list back. -/
def trElemsArrset (h : Handlers) (esch : Sch) (kf : Option KeyField)
    (xs : List Value) (field : String) (st : St) :
    Except Crash (St × List Value) :=
  match xs with
  | [] => pure (st, [])
  | el :: rest => do
    let key := (getElementKey kf el).getD "undefined"
    let (st', nv) ← transformSV h el (some esch) (joinField field key) st
    let (st'', nvs) ← trElemsArrset h esch kf rest field st'
    pure (st'', nv :: nvs)
termination_by (10 * sizeOf esch + 6, xs.length)

/-- `Schema._transformSubschemaValueAsync`: the promise chain runs
`onField`, then the sentinel check (a stop keeps the original value, a
stop-and-set takes its replacement, otherwise the non-nullish new value is
descended into), then — unlike the synchronous variant — `postField` is
chained unconditionally. -/
def transformAsyncSV (h : Handlers) (v : Value) (sch? : Option Sch)
    (field : String) (st : St) : Except Crash (St × Value) :=
  match sch? with
  | some sch => do
    let p := h.onField field v sch st
    let r ← (match p.2 with
      | .stop => pure (p.1, v)
      | .stopSet w => pure (p.1, w)
      | .cont nv =>
        if !nv.isNullish then schTransformAsync h sch nv field p.1
        else pure (p.1, nv))
    match h.postField with
    | some pf => pure (pf field r.2 sch r.1)
    | none => pure r
  | none =>
    if !v.isUndef then pure (h.onUnknownField field v st) else pure (st, v)
termination_by ((match sch? with | none => 0 | some s => 10 * sizeOf s + 5), 0)

/-- The per-kind `transformAsync` dispatch, awaiting each field strictly in
sequence: the default `SchemaType.transformAsync` for object, map and
array, the sequential push-and-compact override for array-set, and the
alternative-match override for `or`. -/
def schTransformAsync (h : Handlers) (sch : Sch) (v : Value) (field : String)
    (st : St) : Except Crash (St × Value) :=
  match sch with
  | .mk (.obj props) _ _ _ =>
    if v.jsTruthy then do
      let entries := objEntries v
      let (st1, cur) ← trFieldsObjA h props entries field st v
      let (st2, batch) ← trMissingObjA h props props (entries.map (·.1)) field st1 []
      pure (st2, batch.foldl (fun c p => objSetFieldV c p.1 p.2) cur)
    else pure (st, v)
  | .mk (.mapT valsch) _ _ _ =>
    if v.jsTruthy then trElemsMapA h valsch (objEntries v) field st v
    else pure (st, v)
  | .mk (.array esch) _ _ _ =>
    if v.jsTruthy then trElemsArrA h esch (arrEntries v) field st v
    else pure (st, v)
  | .mk (.arrset esch kf) _ _ _ =>
    match v with
    | .varr xs => do
      let (st1, results) ← trElemsArrsetA h esch kf xs field st
      pure (st1, .varr results)
    | _ => pure (st, v)
  | .mk (.orT alts) _ _ _ => do
    match ← matchAlternative alts v with
    | some s => transformAsyncSV h v (some s.1) field st
    | none => transformAsyncSV h v none field st
  | _ => pure (st, v)
termination_by (10 * sizeOf sch + 4, 0)
decreasing_by
  all_goals simp_wf
  all_goals
    first
      | (apply Prod.Lex.left; omega)
      | (apply Prod.Lex.left
         have hs : sizeOf s.1 < sizeOf alts := s.2
         omega)

/-- Value-keyed object pass of the default `transformAsync` (awaited one
field at a time). -/
def trFieldsObjA (h : Handlers) (props : List (String × Sch))
    (entries : List (String × Value)) (field : String) (st : St)
    (cur : Value) : Except Crash (St × Value) :=
  match entries with
  | [] => pure (st, cur)
  | (k, subv) :: rest => do
    let (st', nv) ← transformAsyncSV h subv (lookupProp props k) (joinField field k) st
    trFieldsObjA h props rest field st' (objSetFieldV cur k nv)
termination_by (10 * sizeOf props + 2, entries.length)
decreasing_by
  all_goals simp_wf
  all_goals
    first
      | (apply Prod.Lex.left; omega)
      | (apply Prod.Lex.left
         cases hl : lookupProp props k with
         | none => simp only [hl]; omega
         | some c =>
           have hlk := sizeOf_lookupProp hl
           simp only [hl]
           omega)
      | (apply Prod.Lex.right; simp)

/-- Declared-keys object pass of the default `transformAsync`. -/
def trMissingObjA (h : Handlers) (props rem : List (String × Sch))
    (visited : List String) (field : String) (st : St)
    (batch : List (String × Value)) : Except Crash (St × List (String × Value)) :=
  match rem with
  | [] => pure (st, batch)
  | (k, _) :: rest =>
    if visited.contains k then trMissingObjA h props rest visited field st batch
    else do
      let (st', nv) ← transformAsyncSV h .vundef (lookupProp props k) (joinField field k) st
      trMissingObjA h props rest (visited ++ [k]) field st' (batch ++ [(k, nv)])
termination_by (10 * sizeOf props + 2, rem.length)
decreasing_by
  all_goals simp_wf
  all_goals
    first
      | (apply Prod.Lex.left; omega)
      | (apply Prod.Lex.left
         cases hl : lookupProp props k with
         | none => simp only [hl]; omega
         | some c =>
           have hlk := sizeOf_lookupProp hl
           simp only [hl]
           omega)
      | (apply Prod.Lex.right; simp)

/-- Map pass of the default `transformAsync`. -/
def trElemsMapA (h : Handlers) (valsch : Sch)
    (entries : List (String × Value)) (field : String) (st : St)
    (cur : Value) : Except Crash (St × Value) :=
  match entries with
  | [] => pure (st, cur)
  | (k, subv) :: rest => do
    let (st', nv) ← transformAsyncSV h subv (some valsch) (joinField field k) st
    trElemsMapA h valsch rest field st' (mapSetFieldV cur k nv)
termination_by (10 * sizeOf valsch + 6, entries.length)

/-- Array pass of the default `transformAsync`. -/
def trElemsArrA (h : Handlers) (esch : Sch)
    (entries : List (String × Value)) (field : String) (st : St)
    (cur : Value) : Except Crash (St × Value) :=
  match entries with
  | [] => pure (st, cur)
  | (k, subv) :: rest => do
    let (st', nv) ← transformAsyncSV h subv (some esch) (joinField field k) st
    trElemsArrA h esch rest field st' (arrSetFieldV cur k nv)
termination_by (10 * sizeOf esch + 6, entries.length)

/-- `SchemaTypeArraySet.transformAsync`, element pass: await each element
in order, pushing every result that is not `undefined`. -/
def trElemsArrsetA (h : Handlers) (esch : Sch) (kf : Option KeyField)
    (xs : List Value) (field : String) (st : St) :
    Except Crash (St × List Value) :=
  match xs with
  | [] => pure (st, [])
  | el :: rest => do
    let key := (getElementKey kf el).getD "undefined"
    let (st', nv) ← transformAsyncSV h el (some esch) (joinField field key) st
    let (st'', nvs) ← trElemsArrsetA h esch kf rest field st'
    pure (st'', if nv.isUndef then nvs else nv :: nvs)
termination_by (10 * sizeOf esch + 6, xs.length)

end

/-- `{ type: 'string' }`. -/
def strPlain : Sch := plain (.str none none)

/-- `{ type: 'number' }`. -/
def numPlain : Sch := plain (.num none none)

/-- `{ type: 'boolean' }`. -/
def boolPlain : Sch := plain .bool

/-- `{ type: 'mixed' }`. -/
def mixedPlain : Sch := plain (.mixed false)

/-- `or({}, Number, Boolean)`. -/
def orNumBool : Sch := plain (.orT [numPlain, boolPlain])

/-- `or({}, Boolean, Number)`. -/
def orBoolNum : Sch := plain (.orT [boolPlain, numPlain])

/-- `[ String ]`: an array of strings. -/
def arrStr : Sch := plain (.array strPlain)

/-- An array-set of numbers keyed by the whole element. -/
def setNum : Sch := plain (.arrset numPlain none)

/-- An array-set of mixed values keyed by the whole element. -/
def setMixed : Sch := plain (.arrset mixedPlain none)

/-- Transform handlers that log each visited field path and return every
value unchanged. -/
def recHandlers : Handlers :=
  ⟨fun f v _ st => ({ st with trace := st.trace ++ [f] }, .cont v),
   fun _ v st => (st, v), none⟩

/-- Traverse handlers that log each visited field path and always
descend. -/
def recTravHandlers : TravHandlers :=
  ⟨fun f _ _ st => ({ st with trace := st.trace ++ [f] }, true),
   fun _ _ st => st⟩

/-- `{ a: Mixed, b: Mixed }`. -/
def objAB : Sch := plain (.obj [("a", mixedPlain), ("b", mixedPlain)])

/-- Transform handlers that return the stop sentinel on field `a` and
replace every other non-root field with the string `X`. -/
def stopOnA : Handlers :=
  ⟨fun f v _ st =>
    if f = "a" then (st, .stop)
    else if f = "" then (st, .cont v)
    else (st, .cont (.vstr "X")),
   fun _ v st => (st, v), none⟩

/-- Transform handlers whose `onField` always returns the stop sentinel and
whose `postField` replaces the value with `99`. -/
def stopWithPost : Handlers :=
  ⟨fun _ _ _ st => (st, .stop), fun _ v st => (st, v),
   some (fun _ _ _ st => (st, .vnum 99))⟩

/-- The element path used by the array-set traversal/transform overrides:
the computed element key appended to the field path. -/
def arrsetElemPath (field : String) (el : Value) : String :=
  joinField field ((getElementKey none el).getD "undefined")

/-- From the claim text for the array-set dedup: keep exactly one element
per distinct computed key — the first occurrence — in first-occurrence
order. -/
def dedupFirstByKey (kf : Option KeyField) (elems : List Value) : List Value :=
  elems.foldl (fun acc el =>
    if (acc.map (getElementKey kf)).contains (getElementKey kf el) then acc
    else acc ++ [el]) []

/-- Recursion form of the first-occurrence dedup, carrying the set of
already-kept keys. -/
def dedupFirstRec (kf : Option KeyField) (seen : List (Option String)) :
    List Value → List Value
  | [] => []
  | el :: rest =>
    if seen.contains (getElementKey kf el) then dedupFirstRec kf seen rest
    else el :: dedupFirstRec kf (getElementKey kf el :: seen) rest

/-- The type names registered by the default `SchemaFactory` constructor:
every class exported by the core and geo type modules is instantiated and
registered under its name (the bare `SchemaTypePrimitive` instance is
constructed with no name and so lands under the key `"undefined"`). -/
def registeredTypeNames : List String :=
  ["object", "array", "arrayset", "map", "or", "undefined", "string",
   "number", "date", "binary", "boolean", "mixed", "geopoint", "geojson"]

/-- Modelled from the spec: `SchemaFactory.getType` (absent from the
sources; only its callers appear), which resolves a registered type by
name and fails with a `SchemaError` when the name is unknown. -/
def getTypeByName (t : String) : Except Crash Unit :=
  if registeredTypeNames.contains t then .ok ()
  else .error (.schemaError ("Unknown schema type: " ++ t))

/-- The raw (pre-normalization) schema-data shapes of
`Schema._normalizeSubschema` that resolve a type by name: branch (1), a
plain object whose `type` is a string, and branch (2), a bare string
naming a type.  (The two shorthand branches scan `matchShorthandType`
instead and are outside this model.) -/
inductive RawSch where
  | typedNode (typeName : String)
  | bareName (typeName : String)
deriving Repr

/-- Modelled from the spec: the type-name resolution step of
`Schema._normalizeSubschema` on its two string-typed branches; the
per-type canonicalization that follows a successful lookup is not
modelled. -/
def resolveRawType : RawSch → Except Crash Unit
  | .typedNode t => getTypeByName t
  | .bareName t => getTypeByName t

/-- The alternative chosen by `SchemaTypeOr._matchAlternative`, as a plain
subschema (projecting away the termination bound). -/
def matchAlternativeV (alts : List Sch) (v : Value) : Except Crash (Option Sch) :=
  (Option.map (fun s => s.1)) <$> matchAlternative alts v

/-- From the claim text for the `or` resolver: the highest score among the
alternatives. -/
def specMaxScore (scores : List Nat) : Nat := scores.foldr max 0

/-- From the claim text for the `or` resolver: the alternatives tied at a
given score, in declaration order. -/
def specTied (alts : List Sch) (scores : List Nat) (m : Nat) : List Sch :=
  ((alts.zip scores).filter (fun p => p.2 = m)).map (·.1)

/-- From the claim text for the `or` resolver: the first alternative whose
strict validate succeeds. -/
def specFirstValidating (lst : List Sch) (v : Value) : Except Crash (Option Sch) :=
  match lst with
  | [] => pure none
  | a :: rest => do
    let errs ← validateFull defaultValOpts a v
    if errs.isEmpty then pure (some a) else specFirstValidating rest v

/-- From the claim text for the `or` resolver: the first alternative whose
normalize succeeds on a deep copy of the value. -/
def specFirstNormalizing (opts : NormOpts) (lst : List Sch) (v : Value) :
    Except Crash (Option Sch) :=
  match lst with
  | [] => pure none
  | a :: rest => do
    let r ← normalizeFull opts a v
    if r.1.isEmpty then pure (some a) else specFirstNormalizing opts rest v

/-- From the claim text: the whole alternative-matching rule — the unique
alternative at the highest nonzero score; on a tie, the first tied
alternative to strictly validate, else to normalize a deep copy, else to
normalize a deep copy with unknown fields allowed, else the first tied
alternative; and the first alternative overall when everything scores 0. -/
def specMatchAlternative (alts : List Sch) (v : Value) :
    Except Crash (Option Sch) := do
  let scores ← alts.mapM (fun a => cmS a v)
  let m := specMaxScore scores
  if m = 0 then pure alts.head?
  else
    let tied := specTied alts scores m
    if tied.length = 1 then pure tied.head?
    else do
      match ← specFirstValidating tied v with
      | some a => pure (some a)
      | none =>
        match ← specFirstNormalizing defaultNormOpts tied v with
        | some a => pure (some a)
        | none =>
          match ← specFirstNormalizing allowUnknownNormOpts tied v with
          | some a => pure (some a)
          | none => pure tied.head?

@[simp] theorem except_pure_eq_ok {ε α : Type} (a : α) :
    (pure a : Except ε α) = .ok a := rfl

@[simp] theorem except_ok_bind {ε α β : Type} (a : α) (f : α → Except ε β) :
    (Except.ok a >>= f) = f a := rfl

@[simp] theorem except_error_bind {ε α β : Type} (e : ε) (f : α → Except ε β) :
    ((Except.error e : Except ε α) >>= f) = .error e := rfl

@[simp] theorem except_map_ok' {ε α β : Type} (f : α → β) (a : α) :
    (f <$> (Except.ok a : Except ε α)) = .ok (f a) := rfl

@[simp] theorem except_map_error' {ε α β : Type} (f : α → β) (e : ε) :
    (f <$> (Except.error e : Except ε α)) = .error e := rfl

/-- C1 (code bug): for every schema `S` and value `V` such that
`S.normalize(V)` (default options) succeeds, the claim says `S.validate`
on the result succeeds.  The code violates this: for
`S = or({}, Number, Boolean)` and `V = '5'`, normalize succeeds with `5`
(Number uniquely holds the highest score on `'5'`), but validating the
result re-scores the alternatives against `5` and
`SchemaTypeBoolean.checkTypeMatch` calls `value.toLowerCase()` on the
number `5`, throwing a `TypeError` instead of succeeding. -/
theorem c1_normalize_then_validate_crash :
    normalizeFull defaultNormOpts orNumBool (.vstr "5") = .ok ([], .vnum 5) ∧
    validateFull defaultValOpts orNumBool (.vnum 5) =
      .error (.typeError "value.toLowerCase is not a function") := by
  constructor
  · simp +decide [normalizeFull, transformSV, schTransform, matchAlternative,
      cmList, cmS, orNumBool, numPlain, boolPlain, plain, Sch.kind,
      normalizerHandlers, normalizerOnField, normalizerOnUnknownField,
      shallowNormalize, numNormalize, numRangeCheck, jsStrToNum, stEmpty,
      jsToLower, digitsToNat, altsAtScore, headAltOf, headWithMem, liftAlt,
      Sch.dflt, Sch.required, Sch.enumVals, defaultNormOpts, trueStringSet,
      falseStringSet, Value.isNullish, Value.isUndef, Value.isNull,
      Value.isPlainObject, Value.isArray, Value.jsTruthy]
  · simp +decide [validateFull, traverseSV, schTraverse, matchAlternative,
      cmList, cmS, orNumBool, numPlain, boolPlain, plain, Sch.kind,
      validatorHandlers, validatorOnField, validatorOnUnknownField,
      shallowValidate, numNormalize, numRangeCheck, jsStrToNum, stEmpty,
      jsToLower, digitsToNat, altsAtScore, headAltOf, headWithMem, liftAlt,
      Sch.dflt, Sch.required, Sch.enumVals, defaultValOpts, trueStringSet,
      falseStringSet, Value.isNullish, Value.isUndef, Value.isNull,
      Value.isPlainObject, Value.isArray, Value.jsTruthy]

/-- C5 (code bug): the claim (and the repository's own test
`'array empty elements'`) says that for the schema `[String]`,
`normalize([3, undefined])` throws a `ValidationError` with a `FieldError`
code `invalid`.  The code instead compacts the `undefined` hole away
*before* the shallow validate runs, so no `invalid` error can ever fire in
normalize: the call succeeds and returns `['3']`. -/
theorem c5_array_undefined_normalize_succeeds :
    normalizeFull defaultNormOpts arrStr (.varr [.vnum 3, .vundef]) =
      .ok ([], .varr [.vstr "3"]) := by
  simp +decide [normalizeFull, transformSV, schTransform, trElemsArr,
    arrEntries, arrStr, strPlain, plain, Sch.kind, normalizerHandlers,
    normalizerOnField, normalizerOnUnknownField, shallowNormalize,
    strNormalize, jsToString, removeArrayUndefinedValues, arrayValidateElems,
    stEmpty, List.enum, List.enumFrom, getPathStep, allDigits, strToNatM,
    digitsToNat, arrSetFieldV, joinField, Sch.dflt, Sch.required,
    Sch.enumVals, defaultNormOpts, Value.isNullish, Value.isUndef,
    Value.isNull, Value.isPlainObject, Value.isArray, Value.jsTruthy]

/-- C7: normalizing a schema node that carries a string type name not
registered in the schema factory's type registry fails with a
`SchemaError`, for every unknown type-name string — both for a plain node
with a string `type` and for a bare string naming a type. -/
theorem c7_unknown_type_name_schema_error (t : String)
    (h : registeredTypeNames.contains t = false) :
    resolveRawType (.typedNode t) =
      .error (.schemaError ("Unknown schema type: " ++ t)) ∧
    resolveRawType (.bareName t) =
      .error (.schemaError ("Unknown schema type: " ++ t)) := by
  have hm : t ∉ registeredTypeNames := by simpa using h
  constructor <;> simp [resolveRawType, getTypeByName, hm]

/-- Witness for C7 at the concrete unknown type name `frobnicate`. -/
theorem c7_unknown_type_name_schema_error_witness :
    resolveRawType (.typedNode "frobnicate") =
      .error (.schemaError ("Unknown schema type: " ++ "frobnicate")) ∧
    resolveRawType (.bareName "frobnicate") =
      .error (.schemaError ("Unknown schema type: " ++ "frobnicate")) :=
  c7_unknown_type_name_schema_error "frobnicate" (by decide)

/-- The per-field transform of a `mixed`-typed element under the recording
handlers: one trace entry, value unchanged. -/
theorem transformSV_rec_mixed (el : Value) (path : String) (st : St) :
    transformSV recHandlers el (some mixedPlain) path st =
      .ok ({ st with trace := st.trace ++ [path] }, el) := by
  cases el <;>
    simp [transformSV, recHandlers, schTransform, mixedPlain, plain,
      Value.isNullish]

/-- The per-field traverse of a `mixed`-typed element under the recording
handlers: one trace entry. -/
theorem traverseSV_rec_mixed (el : Value) (path : String) (st : St) :
    traverseSV recTravHandlers el (some mixedPlain) path st =
      .ok { st with trace := st.trace ++ [path] } := by
  cases el <;>
    simp [traverseSV, recTravHandlers, schTraverse, mixedPlain, plain,
      Value.isNullish]

/-- The array-set transform element pass visits every element in order
(duplicate keys included) and returns all the per-element results. -/
theorem trElemsArrset_rec (elems : List Value) (field : String) (st : St) :
    trElemsArrset recHandlers mixedPlain none elems field st =
      .ok ({ st with trace := st.trace ++ elems.map (arrsetElemPath field) },
        elems) := by
  induction elems generalizing st with
  | nil => simp [trElemsArrset]
  | cons el rest ih =>
    simp [trElemsArrset, transformSV_rec_mixed, ih, arrsetElemPath]

/-- The array-set traverse element pass visits every element in order
(duplicate keys included). -/
theorem travElemsArrset_rec (elems : List Value) (field : String) (st : St) :
    travElemsArrset recTravHandlers mixedPlain none elems field st =
      .ok { st with trace := st.trace ++ elems.map (arrsetElemPath field) } := by
  induction elems generalizing st with
  | nil => simp [travElemsArrset]
  | cons el rest ih =>
    simp [travElemsArrset, traverseSV_rec_mixed, ih, arrsetElemPath]

/-- C4 (counterexample): the claim says array-set traversal/transform visit
exactly one field per unique computed key and compact the element list to
unique-by-key order.  On the array-set of numbers keyed by the whole
element and the value `[1, 1]` (both elements have key `"1"`), the
recording transform is invoked once per element — the trace is
`["", "1", "1"]`, two visits for the duplicated key — and the resulting
list keeps both elements: it is `[1, 1]`, not the deduplicated `[1]`. -/
theorem c4_counterexample_duplicates_visited :
    transformSV recHandlers (.varr [.vnum 1, .vnum 1]) (some setNum) "" stEmpty
      = .ok (⟨[], ["", "1", "1"]⟩, .varr [.vnum 1, .vnum 1]) ∧
    traverseSV recTravHandlers (.varr [.vnum 1, .vnum 1]) (some setNum) "" stEmpty
      = .ok ⟨[], ["", "1", "1"]⟩ ∧
    Value.varr [.vnum 1, .vnum 1] ≠ .varr [.vnum 1] := by
  refine ⟨?_, ?_, by decide⟩
  · simp +decide [transformSV, recHandlers, schTransform, trElemsArrset,
      setNum, numPlain, plain, Sch.kind, getElementKey, encodeValue,
      jsToString, joinField, stEmpty, Value.isNullish, Value.isUndef,
      Value.jsTruthy, Value.isScalar]
  · simp +decide [traverseSV, recTravHandlers, schTraverse, travElemsArrset,
      setNum, numPlain, plain, Sch.kind, getElementKey, encodeValue,
      jsToString, joinField, stEmpty, Value.isNullish, Value.isUndef,
      Value.jsTruthy, Value.isScalar]

theorem travElemsArrset_foldlM (th : TravHandlers) (esch : Sch)
    (kf : Option KeyField) (field : String) :
    ∀ (xs : List Value) (st : St),
    travElemsArrset th esch kf xs field st =
      xs.foldlM (fun s el => traverseSV th el (some esch)
        (joinField field ((getElementKey kf el).getD "undefined")) s) st := by
  intro xs
  induction xs with
  | nil =>
    intro st
    simp [travElemsArrset]
  | cons el rest ih =>
    intro st
    simp only [travElemsArrset, List.foldlM_cons, ih]

theorem trElemsArrset_foldlM (h : Handlers) (esch : Sch)
    (kf : Option KeyField) (field : String) :
    ∀ (xs : List Value) (st : St) (acc : List Value),
    xs.foldlM (fun (p : St × List Value) el => do
        let q ← transformSV h el (some esch)
          (joinField field ((getElementKey kf el).getD "undefined")) p.1
        pure (q.1, p.2 ++ [q.2])) (st, acc) =
      (do
        let q ← trElemsArrset h esch kf xs field st
        pure (q.1, acc ++ q.2)) := by
  intro xs
  induction xs with
  | nil =>
    intro st acc
    simp [trElemsArrset]
  | cons el rest ih =>
    intro st acc
    simp only [trElemsArrset, List.foldlM_cons]
    cases htr : transformSV h el (some esch)
        (joinField field ((getElementKey kf el).getD "undefined")) st with
    | error e => simp [htr]
    | ok p =>
      simp only [htr, except_ok_bind, except_pure_eq_ok]
      simp only [except_pure_eq_ok] at ih
      rw [ih p.1 (acc ++ [p.2])]
      cases htr2 : trElemsArrset h esch kf rest field p.1 with
      | error e => simp [htr2]
      | ok q2 => simp [htr2]

/-- C4 (amended): for every array-set subschema — any element schema and
any `keyField` — every handler set and every array value, traversal and
transform run the per-field dispatch over every element of the array in
input order (a left fold over the element list itself, so elements whose
computed key duplicates an earlier element's key are visited too), each
addressed by its computed key appended to the field path; and after the
sibling pass the transform writes the element list back in order with
exactly the elements whose transform produced `undefined` dropped — no
compaction to unique-by-key order happens. -/
theorem c4_arrset_transform_visits_every_element (h : Handlers)
    (th : TravHandlers) (esch : Sch) (kf : Option KeyField) (r : Bool)
    (d : Value) (en : Option (List Value)) (xs : List Value) (field : String)
    (st st' : St) :
    schTraverse th (Sch.mk (.arrset esch kf) r d en) (.varr xs) field st =
      xs.foldlM (fun s el => traverseSV th el (some esch)
        (joinField field ((getElementKey kf el).getD "undefined")) s) st ∧
    schTransform h (Sch.mk (.arrset esch kf) r d en) (.varr xs) field st' =
      (do
        let p ← xs.foldlM (fun (p : St × List Value) el => do
            let q ← transformSV h el (some esch)
              (joinField field ((getElementKey kf el).getD "undefined")) p.1
            pure (q.1, p.2 ++ [q.2])) (st', ([] : List Value))
        pure (p.1, Value.varr (p.2.filter (fun x => !x.isUndef)))) := by
  constructor
  · rw [← travElemsArrset_foldlM]
    simp only [schTraverse]
  · rw [trElemsArrset_foldlM]
    simp only [schTransform]
    cases htr : trElemsArrset h esch kf xs field st' with
    | error e => simp [htr]
    | ok p => simp [htr]

/-- C6: during transform, a stop sentinel from the `onField` handler keeps
the field's original value and causes no recursion into the subtree (the
state is exactly the handler's output state and `postField` is skipped); a
stop-and-set sentinel installs its replacement the same way; sibling
fields are still transformed normally (third conjunct: with a handler that
stops on `a` and rewrites other fields to `"X"`, `a` keeps its original
value while the sibling `b` is rewritten). -/
theorem c6_stop_sentinels (h : Handlers) (v : Value) (sch : Sch)
    (field : String) (st st1 : St) (r : Value) :
    (h.onField field v sch st = (st1, .stop) →
      transformSV h v (some sch) field st = .ok (st1, v)) ∧
    (h.onField field v sch st = (st1, .stopSet r) →
      transformSV h v (some sch) field st = .ok (st1, r)) ∧
    transformSV stopOnA (.vobj [("a", .vnum 1), ("b", .vnum 2)]) (some objAB)
        "" stEmpty
      = .ok (stEmpty, .vobj [("a", .vnum 1), ("b", .vstr "X")]) := by
  refine ⟨?_, ?_, ?_⟩
  · intro he; simp [transformSV, he]
  · intro he; simp [transformSV, he]
  · simp +decide [transformSV, stopOnA, schTransform, objAB, mixedPlain,
      plain, Sch.kind, trFieldsObj, trMissingObj, objEntries, objKeys,
      getPathStep, lookupProp, joinField, objSetFieldV, setAssoc, stEmpty,
      Value.isNullish, Value.isUndef, Value.jsTruthy]

/-- Witness for C6: a handler that returns the stop sentinel at field `a`
leaves the value `7` unchanged. -/
theorem c6_stop_sentinels_witness :
    transformSV stopOnA (.vnum 7) (some mixedPlain) "a" stEmpty =
      .ok (stEmpty, .vnum 7) :=
  (c6_stop_sentinels stopOnA (.vnum 7) mixedPlain "a" stEmpty stEmpty
    (.vnum 0)).1 rfl

theorem arrayValidateElems_not_required {l : List Value} {e : FieldErr}
    (h : arrayValidateElems l = some e) : e.code ≠ "required" := by
  induction l with
  | nil => simp [arrayValidateElems] at h
  | cons x rest ih =>
    unfold arrayValidateElems at h
    split_ifs at h
    · injection h with h2; subst h2; decide
    · exact ih h

theorem arrsetValidateElems_not_required {kf : Option KeyField}
    {l : List Value} {e : FieldErr}
    (h : arrsetValidateElems kf l = some e) : e.code ≠ "required" := by
  induction l with
  | nil => simp [arrsetValidateElems] at h
  | cons x rest ih =>
    unfold arrsetValidateElems at h
    split_ifs at h
    · injection h with h2; subst h2; decide
    · injection h with h2; subst h2; decide
    · exact ih h

theorem strNormalize_not_required {minL maxL : Option Int} {v : Value}
    {e : FieldErr} (h : strNormalize minL maxL v = .error e) :
    e.code ≠ "required" := by
  unfold strNormalize at h
  repeat' split at h
  all_goals try simp only [] at h
  all_goals try split_ifs at h
  all_goals
    first
      | exact Except.noConfusion h
      | (injection h with h2; subst h2; decide)

theorem numRangeCheck_not_required {minV maxV : Option Int} {n : Int}
    {e : FieldErr} (h : numRangeCheck minV maxV n = .error e) :
    e.code ≠ "required" := by
  unfold numRangeCheck at h
  repeat' split at h
  all_goals
    first
      | exact Except.noConfusion h
      | (injection h with h2; subst h2; decide)

theorem numNormalize_not_required {minV maxV : Option Int} {v : Value}
    {e : FieldErr} (h : numNormalize minV maxV v = .error e) :
    e.code ≠ "required" := by
  unfold numNormalize at h
  repeat' split at h
  all_goals
    first
      | exact Except.noConfusion h
      | exact numRangeCheck_not_required h
      | (injection h with h2; subst h2; decide)

theorem mixedNormalize_not_required {sm so : Bool} {v : Value}
    {e : FieldErr} (h : mixedNormalize sm so v = .error e) :
    e.code ≠ "required" := by
  unfold mixedNormalize at h
  repeat' split at h
  all_goals
    first
      | exact Except.noConfusion h
      | (injection h with h2; subst h2; decide)

/-- No shallow `validate` of any embedded type produces a `required`
error: `required` is only ever reported by the traversal handlers for a
missing value. -/
theorem shallowValidate_not_required {sch : Sch} {v : Value} {e : FieldErr}
    (h : shallowValidate sch v = some e) : e.code ≠ "required" := by
  obtain ⟨kind, r, d, en⟩ := sch
  unfold shallowValidate at h
  cases kind with
  | str minL maxL =>
    simp only [Sch.kind] at h
    split at h
    · split at h
      · exact Option.noConfusion h
      · injection h with h2; subst h2
        exact strNormalize_not_required (by assumption)
    · injection h with h2; subst h2; decide
  | num minV maxV =>
    simp only [Sch.kind] at h
    split at h
    · split at h
      · exact Option.noConfusion h
      · injection h with h2; subst h2
        exact numNormalize_not_required (by assumption)
    · injection h with h2; subst h2; decide
  | bool =>
    simp only [Sch.kind] at h
    split at h
    · exact Option.noConfusion h
    · injection h with h2; subst h2; decide
  | mixed sm =>
    simp only [Sch.kind] at h
    split at h
    · exact Option.noConfusion h
    · injection h with h2; subst h2
      exact mixedNormalize_not_required (by assumption)
  | obj props =>
    simp only [Sch.kind] at h
    split_ifs at h
    injection h with h2; subst h2; decide
  | mapT valsch =>
    simp only [Sch.kind] at h
    split_ifs at h
    injection h with h2; subst h2; decide
  | array esch =>
    simp only [Sch.kind] at h
    split at h
    · exact arrayValidateElems_not_required h
    · injection h with h2; subst h2; decide
  | arrset esch kf =>
    simp only [Sch.kind] at h
    split at h
    · exact arrsetValidateElems_not_required h
    · injection h with h2; subst h2; decide
  | orT alts =>
    simp only [Sch.kind] at h
    exact Option.noConfusion h

/-- C10: during validate, a nullish field value whose subschema declares a
non-null default is treated as having the default value: the handler
behaves exactly as if the default had been passed in (so the default is
what gets validated), and no `required` `FieldError` is reported even when
the subschema marks the field required. -/
theorem c10_validator_default (field : String) (v : Value) (sch : Sch)
    (st : St) (h1 : v.isNullish = true) (h2 : sch.dflt.isUndef = false)
    (h3 : sch.dflt.isNull = false) :
    validatorOnField defaultValOpts field v sch st =
      validatorOnField defaultValOpts field sch.dflt sch st ∧
    ∀ e ∈ (validatorOnField defaultValOpts field v sch st).1.errors,
      e.code = "required" → e ∈ st.errors := by
  have hnn : sch.dflt.isNullish = false := by
    cases hd : sch.dflt <;> simp_all [Value.isNullish, Value.isUndef, Value.isNull]
  have heq : validatorOnField defaultValOpts field v sch st =
      validatorOnField defaultValOpts field sch.dflt sch st := by
    unfold validatorOnField
    simp [h1, h2, h3, hnn]
  refine ⟨heq, ?_⟩
  rw [heq]
  unfold validatorOnField
  simp only [hnn, h2, h3, Bool.false_eq_true, Bool.not_false, Bool.and_self,
    if_false, Bool.and_true, if_true]
  intro e he hreq
  split at he
  · simp at he
    rcases he with he | he
    · exact he
    · subst he; simp at hreq
  · split at he
    · next e' hsv =>
      simp at he
      rcases he with he | he
      · exact he
      · subst he
        simp at hreq
        exact absurd hreq (shallowValidate_not_required hsv)
    · simp at he; exact he

/-- Witness for `c10_validator_default`: the string schema
`{ type: String, required: true, default: "d" }` applied to `undefined`
raises no error at all. -/
theorem c10_validator_default_witness :
    (Value.vundef).isNullish = true ∧
    (Sch.mk (.str none none) true (.vstr "d") none).dflt.isUndef = false ∧
    (Sch.mk (.str none none) true (.vstr "d") none).dflt.isNull = false ∧
    (validatorOnField defaultValOpts "a" .vundef
        (Sch.mk (.str none none) true (.vstr "d") none) stEmpty =
      validatorOnField defaultValOpts "a" (.vstr "d")
        (Sch.mk (.str none none) true (.vstr "d") none) stEmpty ∧
    ∀ e ∈ (validatorOnField defaultValOpts "a" .vundef
        (Sch.mk (.str none none) true (.vstr "d") none) stEmpty).1.errors,
      e.code = "required" → e ∈ stEmpty.errors) := by
  refine ⟨by decide, by decide, by decide, ?_⟩
  exact c10_validator_default "a" .vundef
    (Sch.mk (.str none none) true (.vstr "d") none) stEmpty
    (by decide) (by decide) (by decide)

theorem dedupFirstRec_sublist (kf : Option KeyField)
    (seen : List (Option String)) (xs : List Value) :
    List.Sublist (dedupFirstRec kf seen xs) xs := by
  induction xs generalizing seen with
  | nil => simp [dedupFirstRec]
  | cons el rest ih =>
    unfold dedupFirstRec
    split
    · exact List.Sublist.cons el (ih seen)
    · exact List.Sublist.cons₂ el (ih _)

theorem dedupFirstRec_keys (kf : Option KeyField)
    (seen : List (Option String)) (xs : List Value) :
    (∀ y ∈ dedupFirstRec kf seen xs, getElementKey kf y ∉ seen) ∧
    ((dedupFirstRec kf seen xs).map (getElementKey kf)).Nodup := by
  induction xs generalizing seen with
  | nil => simp [dedupFirstRec]
  | cons el rest ih =>
    unfold dedupFirstRec
    split
    · exact ih seen
    · next hc =>
      have hnot : getElementKey kf el ∉ seen := by simpa using hc
      obtain ⟨ha, hb⟩ := ih (getElementKey kf el :: seen)
      constructor
      · intro y hy
        rcases List.mem_cons.mp hy with rfl | hy
        · exact hnot
        · exact fun hm => ha y hy (by simp [hm])
      · simp only [List.map_cons, List.nodup_cons]
        refine ⟨?_, hb⟩
        intro hmem
        obtain ⟨y, hy, hgy⟩ := List.mem_map.mp hmem
        exact ha y hy (by simp [hgy])

theorem dedupFirstRec_covers (kf : Option KeyField)
    (seen : List (Option String)) (xs : List Value) :
    ∀ el ∈ xs, getElementKey kf el ∈ seen ∨
      getElementKey kf el ∈ (dedupFirstRec kf seen xs).map (getElementKey kf) := by
  induction xs generalizing seen with
  | nil => simp
  | cons x rest ih =>
    intro el hel
    rcases List.mem_cons.mp hel with rfl | hel
    · unfold dedupFirstRec
      split
      · next hc => exact .inl (by simpa using hc)
      · right; simp
    · unfold dedupFirstRec
      split
      · exact ih seen el hel
      · rcases ih (getElementKey kf x :: seen) el hel with h | h
        · rcases List.mem_cons.mp h with heq | h
          · right; simp [heq]
          · exact .inl h
        · right
          simp only [List.map_cons]
          exact List.mem_cons_of_mem _ h

theorem dedupFirstRec_first (kf : Option KeyField)
    (seen : List (Option String)) (xs : List Value) :
    ∀ y ∈ dedupFirstRec kf seen xs,
      getElementKey kf y ∉ seen ∧
      xs.find? (fun x => decide (getElementKey kf x = getElementKey kf y))
        = some y := by
  induction xs generalizing seen with
  | nil => simp [dedupFirstRec]
  | cons x rest ih =>
    intro y hy
    unfold dedupFirstRec at hy
    split at hy
    · next hc =>
      obtain ⟨hns, hfind⟩ := ih seen y hy
      have hne : getElementKey kf x ≠ getElementKey kf y := by
        intro he
        exact hns (he ▸ (by simpa using hc))
      refine ⟨hns, ?_⟩
      rw [List.find?_cons_of_neg]
      · exact hfind
      · simp [hne]
    · next hc =>
      rcases List.mem_cons.mp hy with rfl | hy
      · refine ⟨by simpa using hc, ?_⟩
        rw [List.find?_cons_of_pos]
        simp
      · obtain ⟨hns, hfind⟩ := ih _ y hy
        have hxy : getElementKey kf x ≠ getElementKey kf y := by
          intro he
          exact hns (by simp [he])
        refine ⟨fun hm => hns (by simp [hm]), ?_⟩
        rw [List.find?_cons_of_neg]
        · exact hfind
        · simp [hxy]

theorem dedupFoldl_eq (kf : Option KeyField) (xs : List Value)
    (acc : List Value) (seen : List (Option String))
    (hinv : ∀ k : Option String,
      k ∈ acc.map (getElementKey kf) ↔ k ∈ seen) :
    xs.foldl (fun acc el =>
        if (acc.map (getElementKey kf)).contains (getElementKey kf el) then acc
        else acc ++ [el]) acc
      = acc ++ dedupFirstRec kf seen xs := by
  induction xs generalizing acc seen with
  | nil => simp [dedupFirstRec]
  | cons el rest ih =>
    simp only [List.foldl_cons]
    unfold dedupFirstRec
    by_cases hm : getElementKey kf el ∈ seen
    · have hc1 : ((acc.map (getElementKey kf)).contains (getElementKey kf el))
          = true := by simp [(hinv _).mpr hm]
      have hc2 : (seen.contains (getElementKey kf el)) = true := by simpa using hm
      rw [if_pos hc1, if_pos hc2]
      exact ih acc seen hinv
    · have hc1 : ((acc.map (getElementKey kf)).contains (getElementKey kf el))
          = false := by simp [hinv, hm]
      have hc2 : (seen.contains (getElementKey kf el)) = false := by simpa using hm
      rw [if_neg (by rw [hc1]; simp), if_neg (by rw [hc2]; simp)]
      have hinv2 : ∀ k : Option String,
          k ∈ (acc ++ [el]).map (getElementKey kf) ↔
            k ∈ getElementKey kf el :: seen := by
        intro k
        simp [hinv k, or_comm]
      rw [ih (acc ++ [el]) (getElementKey kf el :: seen) hinv2]
      simp

theorem dedupFirstByKey_eq_rec (kf : Option KeyField) (xs : List Value) :
    dedupFirstByKey kf xs = dedupFirstRec kf [] xs := by
  have h := dedupFoldl_eq kf xs [] [] (by simp)
  simpa [dedupFirstByKey] using h

theorem removeUndef_markDups (kf : Option KeyField)
    (seen : List (Option String)) (xs : List Value)
    (h1 : ∀ el ∈ xs, el.isUndef = false) :
    removeArrayUndefinedValues (arrsetMarkDups kf seen xs) =
      dedupFirstRec kf seen xs := by
  induction xs generalizing seen with
  | nil => simp [arrsetMarkDups, dedupFirstRec, removeArrayUndefinedValues]
  | cons el rest ih =>
    have hel : el.isUndef = false := h1 el (by simp)
    have hrest : ∀ x ∈ rest, x.isUndef = false := fun x hx => h1 x (by simp [hx])
    by_cases hc : seen.contains (getElementKey kf el) = true
    · have hstep : arrsetMarkDups kf seen (el :: rest)
          = .vundef :: arrsetMarkDups kf seen rest := by
        simp only [arrsetMarkDups]
        rw [if_pos hc]
      rw [hstep]
      have hd : dedupFirstRec kf seen (el :: rest) = dedupFirstRec kf seen rest := by
        simp only [dedupFirstRec]
        rw [if_pos hc]
      rw [hd, ← ih seen hrest]
      simp [removeArrayUndefinedValues, Value.isUndef]
    · have hcf : seen.contains (getElementKey kf el) = false := by
        simpa using hc
      have hstep : arrsetMarkDups kf seen (el :: rest)
          = el :: arrsetMarkDups kf (getElementKey kf el :: seen) rest := by
        simp only [arrsetMarkDups]
        rw [if_neg (by rw [hcf]; simp)]
      rw [hstep]
      have hd : dedupFirstRec kf seen (el :: rest)
          = el :: dedupFirstRec kf (getElementKey kf el :: seen) rest := by
        simp only [dedupFirstRec]
        rw [if_neg (by rw [hcf]; simp)]
      rw [hd, ← ih _ hrest]
      simp [removeArrayUndefinedValues, hel]

theorem arrsetValidateElems_dedup_none (kf : Option KeyField)
    (seen : List (Option String)) (xs : List Value)
    (h1 : ∀ el ∈ xs, el.isUndef = false)
    (h2 : ∀ el ∈ xs, (getElementKey kf el).isSome) :
    arrsetValidateElems kf (dedupFirstRec kf seen xs) = none := by
  induction xs generalizing seen with
  | nil => simp [dedupFirstRec, arrsetValidateElems]
  | cons el rest ih =>
    have hrest1 : ∀ x ∈ rest, x.isUndef = false := fun x hx => h1 x (by simp [hx])
    have hrest2 : ∀ x ∈ rest, (getElementKey kf x).isSome :=
      fun x hx => h2 x (by simp [hx])
    unfold dedupFirstRec
    split
    · exact ih seen hrest1 hrest2
    · have hu : ¬ (el.isUndef = true) := by simp [h1 el (by simp)]
      have hk : ¬ ((getElementKey kf el).isNone = true) := by
        have h := h2 el (by simp)
        cases hg : getElementKey kf el <;> simp_all
      unfold arrsetValidateElems
      rw [if_neg hu, if_neg hk]
      exact ih _ hrest1 hrest2

/-- C3 (amended): for an array-set subschema, normalizing an array value
whose elements are not `undefined` and all have a defined computed key
yields exactly the spec's first-occurrence dedup: the result keeps one
element per distinct computed key (`Nodup` of the kept keys plus coverage
of every input key), the kept element for each key is the first occurrence
in the input (`find?`), and kept elements appear in first-occurrence order
(`Sublist` of the input).  The amendment: the claim's hypothesis must also
exclude `undefined` elements — with a multi-field `keyField` an `undefined`
element still has a defined computed key, yet the compaction pass drops it,
leaving its key with no kept element. -/
theorem c3_arrset_dedup_normalize (opts : NormOpts) (esch : Sch) (r : Bool)
    (d : Value) (en : Option (List Value)) (kf : Option KeyField)
    (xs : List Value)
    (h1 : ∀ el ∈ xs, el.isUndef = false)
    (h2 : ∀ el ∈ xs, (getElementKey kf el).isSome) :
    shallowNormalize opts (Sch.mk (.arrset esch kf) r d en) (.varr xs) =
      .ok (.varr (dedupFirstByKey kf xs)) ∧
    List.Sublist (dedupFirstByKey kf xs) xs ∧
    ((dedupFirstByKey kf xs).map (getElementKey kf)).Nodup ∧
    (∀ el ∈ xs,
      getElementKey kf el ∈ (dedupFirstByKey kf xs).map (getElementKey kf)) ∧
    (∀ y ∈ dedupFirstByKey kf xs,
      xs.find? (fun x => decide (getElementKey kf x = getElementKey kf y))
        = some y) := by
  have hbk := dedupFirstByKey_eq_rec kf xs
  refine ⟨?_, ?_, ?_, ?_, ?_⟩
  · simp only [shallowNormalize, Sch.kind]
    rw [removeUndef_markDups kf [] xs h1]
    rw [arrsetValidateElems_dedup_none kf [] xs h1 h2]
    rw [hbk]
  · rw [hbk]
    exact dedupFirstRec_sublist kf [] xs
  · rw [hbk]
    exact (dedupFirstRec_keys kf [] xs).2
  · simp only [hbk]
    intro el hel
    rcases dedupFirstRec_covers kf [] xs el hel with h | h
    · simp at h
    · exact h
  · simp only [hbk]
    intro y hy
    exact (dedupFirstRec_first kf [] xs y hy).2

/-- Witness for `c3_arrset_dedup_normalize`: normalizing the whole-element
keyed array-set value `[1, 2, 1]` keeps `[1, 2]`. -/
theorem c3_arrset_dedup_normalize_witness :
    (∀ el ∈ [Value.vnum 1, .vnum 2, .vnum 1], el.isUndef = false) ∧
    (∀ el ∈ [Value.vnum 1, .vnum 2, .vnum 1], (getElementKey none el).isSome) ∧
    (shallowNormalize defaultNormOpts (Sch.mk (.arrset numPlain none) false .vundef none)
        (.varr [.vnum 1, .vnum 2, .vnum 1]) =
      .ok (.varr (dedupFirstByKey none [.vnum 1, .vnum 2, .vnum 1])) ∧
    List.Sublist (dedupFirstByKey none [.vnum 1, .vnum 2, .vnum 1])
      [Value.vnum 1, .vnum 2, .vnum 1] ∧
    ((dedupFirstByKey none [.vnum 1, .vnum 2, .vnum 1]).map
      (getElementKey none)).Nodup ∧
    (∀ el ∈ [Value.vnum 1, .vnum 2, .vnum 1],
      getElementKey none el ∈ (dedupFirstByKey none
        [.vnum 1, .vnum 2, .vnum 1]).map (getElementKey none)) ∧
    (∀ y ∈ dedupFirstByKey none [.vnum 1, .vnum 2, .vnum 1],
      List.find? (fun x => decide (getElementKey none x = getElementKey none y))
        [Value.vnum 1, .vnum 2, .vnum 1] = some y)) := by
  refine ⟨by decide, ?_, ?_⟩
  · intro el hel
    simp only [List.mem_cons, List.not_mem_nil, or_false] at hel
    rcases hel with rfl | rfl | rfl <;>
      simp [getElementKey, encodeValue, jsToString]
  · exact c3_arrset_dedup_normalize defaultNormOpts numPlain false .vundef none
      none [.vnum 1, .vnum 2, .vnum 1] (by decide)
      (by intro el hel
          simp only [List.mem_cons, List.not_mem_nil, or_false] at hel
          rcases hel with rfl | rfl | rfl <;>
            simp [getElementKey, encodeValue, jsToString])

/-- C3 (counterexample to the literal claim): with the multi-field
`keyField ['a']`, the `undefined` element has a defined computed key
(`getPath` reads `undefined` through the missing field and the key encoder
joins it to the empty string), yet normalizing `[undefined]` yields `[]` —
no element at all is kept for that key, not the first occurrence the claim
promises (the spec-worded dedup would keep `[undefined]`). -/
theorem c3_counterexample_undef_key :
    (∀ el ∈ [Value.vundef],
      (getElementKey (some (.multi ["a"])) el).isSome) ∧
    shallowNormalize defaultNormOpts
        (Sch.mk (.arrset numPlain (some (.multi ["a"]))) false .vundef none)
        (.varr [.vundef]) = .ok (.varr []) ∧
    dedupFirstByKey (some (.multi ["a"])) [.vundef] = [.vundef] ∧
    Value.varr [] ≠ .varr [.vundef] := by
  refine ⟨?_, ?_, ?_, by decide⟩
  · intro el hel
    simp only [List.mem_cons, List.not_mem_nil, or_false] at hel
    subst hel
    simp [getElementKey, encodeValue, getPath, getPathStep]
  · simp [shallowNormalize, Sch.kind, arrsetMarkDups, getElementKey,
      encodeValue, getPath, getPathStep, removeArrayUndefinedValues,
      arrsetValidateElems, Value.isUndef]
  · simp [dedupFirstByKey, getElementKey, encodeValue, getPath, getPathStep]

@[simp] theorem except_map_bind {ε α β γ : Type} (f : β → γ) (x : Except ε α)
    (g : α → Except ε β) :
    f <$> (x >>= g) = x >>= fun a => f <$> g a := by
  cases x <;> rfl

theorem foldl_max_le {c : Nat} (l : List Nat) (a : Nat) (h : ∀ x ∈ l, x ≤ c)
    (ha : a ≤ c) : l.foldl max a ≤ c := by
  induction l generalizing a with
  | nil => simpa
  | cons x xs ih =>
    simp only [List.foldl_cons]
    exact ih _ (fun y hy => h y (List.mem_cons_of_mem x hy))
      (Nat.max_le.mpr ⟨ha, h x (List.mem_cons_self x xs)⟩)

theorem cm_bound (k : Nat) :
    (∀ sch : Sch, sizeOf sch ≤ k → ∀ v n, cmS sch v = .ok n → n ≤ 3) ∧
    (∀ alts : List Sch, sizeOf alts ≤ k → ∀ v ns, cmList alts v = .ok ns →
      ∀ x ∈ ns, x ≤ 3) := by
  induction k using Nat.strong_induction_on with
  | _ k ih =>
    constructor
    · intro sch hsz v n h
      obtain ⟨kind, r, d, en⟩ := sch
      cases kind with
      | str a b =>
        cases v <;> simp [cmS] at h <;> omega
      | num a b =>
        cases v <;> simp [cmS] at h <;> (try split at h) <;> omega
      | bool =>
        cases v <;> (try simp [cmS] at h) <;> (try split at h) <;>
          (try simp at h) <;> omega
      | mixed sm =>
        simp only [cmS] at h
        simp at h
        omega
      | obj props =>
        simp only [cmS] at h
        split at h <;> simp at h <;> omega
      | mapT vs =>
        simp only [cmS] at h
        split at h <;> simp at h <;> omega
      | array es =>
        simp only [cmS] at h
        split at h <;> simp at h <;> omega
      | arrset es kf =>
        simp only [cmS] at h
        split at h <;> simp at h <;> omega
      | orT alts =>
        simp only [cmS] at h
        cases hc : cmList alts v with
        | error e => rw [hc] at h; simp at h
        | ok scores =>
          rw [hc] at h
          simp at h
          have hlt : sizeOf alts < sizeOf (Sch.mk (.orT alts) r d en) := by
            simp [Sch.mk.sizeOf_spec, SchKind.orT.sizeOf_spec]
            omega
          have hb := (ih (sizeOf alts) (by omega)).2 alts (le_refl _) v scores hc
          subst h
          exact foldl_max_le scores 0 hb (by omega)
    · intro alts hsz v ns h
      cases alts with
      | nil =>
        simp only [cmList, except_pure_eq_ok, Except.ok.injEq] at h
        subst h
        simp
      | cons a rest =>
        simp only [cmList] at h
        cases hca : cmS a v with
        | error e => rw [hca] at h; simp at h
        | ok m =>
          rw [hca] at h
          cases hcr : cmList rest v with
          | error e => rw [hcr] at h; simp at h
          | ok ms =>
            rw [hcr] at h
            simp at h
            subst h
            intro x hx
            have hsa : sizeOf a < sizeOf (a :: rest) := by
              simp
              try omega
            have hsr : sizeOf rest < sizeOf (a :: rest) := by
              simp
              try omega
            rcases List.mem_cons.mp hx with rfl | hx
            · exact (ih (sizeOf a) (by omega)).1 a (le_refl _) v x hca
            · exact (ih (sizeOf rest) (by omega)).2 rest (le_refl _) v ms hcr x hx

theorem cmList_ok_le_3 {alts : List Sch} {v : Value} {ns : List Nat}
    (h : cmList alts v = .ok ns) : ∀ x ∈ ns, x ≤ 3 :=
  (cm_bound (sizeOf alts)).2 alts (le_refl _) v ns h

theorem cmList_length {alts : List Sch} {v : Value} {ns : List Nat}
    (h : cmList alts v = .ok ns) : ns.length = alts.length := by
  induction alts generalizing ns with
  | nil =>
    simp only [cmList, except_pure_eq_ok, Except.ok.injEq] at h
    subst h
    simp
  | cons a rest ih =>
    simp only [cmList] at h
    cases hca : cmS a v with
    | error e => rw [hca] at h; simp at h
    | ok m =>
      rw [hca] at h
      cases hcr : cmList rest v with
      | error e => rw [hcr] at h; simp at h
      | ok ms =>
        rw [hcr] at h
        simp at h
        subst h
        simp [ih hcr]

theorem cmList_eq_mapM (alts : List Sch) (v : Value) :
    cmList alts v = alts.mapM (fun a => cmS a v) := by
  induction alts with
  | nil => rw [List.mapM_nil]; simp [cmList]
  | cons a rest ih => rw [List.mapM_cons]; simp [cmList, ih]

theorem le_specMaxScore (s : List Nat) : ∀ x ∈ s, x ≤ specMaxScore s := by
  induction s with
  | nil => simp
  | cons a rest ih =>
    intro x hx
    rcases List.mem_cons.mp hx with rfl | hx
    · simp [specMaxScore]
    · simp only [specMaxScore, List.foldr_cons]
      exact le_trans (ih x hx) (le_max_right _ _)

theorem specMaxScore_mem {s : List Nat} (h : specMaxScore s ≠ 0) :
    specMaxScore s ∈ s := by
  induction s with
  | nil => simp [specMaxScore] at h
  | cons a rest ih =>
    have hms : specMaxScore (a :: rest) = max a (specMaxScore rest) := by
      simp [specMaxScore]
    rw [hms] at h ⊢
    rcases Nat.le_total a (specMaxScore rest) with hle | hle
    · rw [Nat.max_eq_right hle] at h ⊢
      exact List.mem_cons_of_mem _ (ih h)
    · rw [Nat.max_eq_left hle] at h ⊢
      exact List.mem_cons_self _ _

theorem altsAtScore_nil_of_gt {alts : List Sch} {scores : List Nat} {m i : Nat}
    (hb : ∀ x ∈ scores, x ≤ m) (hi : m < i) :
    altsAtScore alts scores i = [] := by
  induction alts generalizing scores with
  | nil => simp [altsAtScore]
  | cons a rest ih =>
    cases scores with
    | nil => simp [altsAtScore]
    | cons s ss =>
      have hs : s ≤ m := hb s (by simp)
      have hne : s ≠ i := by omega
      simp only [altsAtScore, if_neg hne]
      exact ih (fun x hx => hb x (by simp [hx]))

theorem altsAtScore_ne_nil {alts : List Sch} {scores : List Nat} {m : Nat}
    (hlen : scores.length = alts.length) (hm : m ∈ scores) :
    altsAtScore alts scores m ≠ [] := by
  induction alts generalizing scores with
  | nil => cases scores <;> simp_all
  | cons a rest ih =>
    cases scores with
    | nil => simp at hm
    | cons s ss =>
      by_cases hsi : s = m
      · simp [altsAtScore, hsi]
      · simp only [altsAtScore, if_neg hsi]
        rcases List.mem_cons.mp hm with rfl | hm
        · exact absurd rfl hsi
        · exact ih (by simpa using hlen) hm

theorem altsAtScore_eq_specTied (alts : List Sch) (scores : List Nat)
    (i : Nat) : altsAtScore alts scores i = specTied alts scores i := by
  induction alts generalizing scores with
  | nil => simp [altsAtScore, specTied]
  | cons a rest ih =>
    cases scores with
    | nil => simp [altsAtScore, specTied]
    | cons s ss =>
      by_cases hsi : s = i
      · simp [altsAtScore, specTied, hsi, List.filter_cons, ih ss]
      · simp [altsAtScore, specTied, hsi, List.filter_cons, ih ss]

theorem headAltOf_val {alts : List Sch} (tb : List Sch)
    (htb : ∀ s ∈ tb, s ∈ alts) :
    (headAltOf tb htb).map (fun s => s.1) = tb.head? := by
  cases tb <;> simp [headAltOf, headWithMem, liftAlt]

theorem headAlt_val (alts : List Sch) :
    (headAlt alts).map (fun s => s.1) = alts.head? := by
  cases alts <;> simp [headAlt, headWithMem]

theorem tbFindValidate_spec (lst : List Sch) (v : Value) :
    (Option.map (fun s => s.1)) <$> tbFindValidate lst v
      = specFirstValidating lst v := by
  induction lst with
  | nil => simp [tbFindValidate, specFirstValidating]
  | cons a rest ih =>
    simp only [tbFindValidate, specFirstValidating]
    cases hv : validateFull defaultValOpts a v with
    | error e => simp [hv]
    | ok errs =>
      simp only [hv, except_ok_bind, except_map_bind]
      by_cases he : errs.isEmpty
      · simp [he]
      · simp only [if_neg he]
        rw [← ih]
        cases hr : tbFindValidate rest v with
        | error e => simp [hr]
        | ok ropt => cases ropt <;> simp [hr]

theorem tbFindNormalize_spec (opts : NormOpts) (lst : List Sch) (v : Value) :
    (Option.map (fun s => s.1)) <$> tbFindNormalize opts lst v
      = specFirstNormalizing opts lst v := by
  induction lst with
  | nil => simp [tbFindNormalize, specFirstNormalizing]
  | cons a rest ih =>
    simp only [tbFindNormalize, specFirstNormalizing]
    cases hv : normalizeFull opts a v with
    | error e => simp [hv]
    | ok r =>
      simp only [hv, except_ok_bind, except_map_bind]
      by_cases he : r.1.isEmpty
      · simp [he]
      · simp only [if_neg he]
        rw [← ih]
        cases hr : tbFindNormalize opts rest v with
        | error e => simp [hr]
        | ok ropt => cases ropt <;> simp [hr]

theorem matchTiebreak_spec {alts : List Sch} (tb : List Sch)
    (htb : ∀ s ∈ tb, s ∈ alts) (v : Value) :
    (Option.map (fun s => s.1)) <$> matchTiebreak alts tb htb v
      = (do
          match ← specFirstValidating tb v with
          | some a => pure (some a)
          | none =>
            match ← specFirstNormalizing defaultNormOpts tb v with
            | some a => pure (some a)
            | none =>
              match ← specFirstNormalizing allowUnknownNormOpts tb v with
              | some a => pure (some a)
              | none => pure tb.head?) := by
  simp only [matchTiebreak]
  rw [← tbFindValidate_spec, ← tbFindNormalize_spec, ← tbFindNormalize_spec]
  cases h1 : tbFindValidate tb v with
  | error e => simp [h1]
  | ok r1 =>
    cases r1 with
    | some s => simp [h1, liftAlt]
    | none =>
      simp only [h1, except_ok_bind, except_map_bind, except_map_ok',
        Option.map_none]
      cases h2 : tbFindNormalize defaultNormOpts tb v with
      | error e => simp [h2]
      | ok r2 =>
        cases r2 with
        | some s => simp [h2, liftAlt]
        | none =>
          simp only [h2, except_ok_bind, except_map_bind, except_map_ok',
            Option.map_none]
          cases h3 : tbFindNormalize allowUnknownNormOpts tb v with
          | error e => simp [h3]
          | ok r3 =>
            cases r3 with
            | some s => simp [h3, liftAlt]
            | none => simp [h3, headAltOf_val tb htb]

theorem matchAltV_eq_spec (alts : List Sch) (v : Value) :
    matchAlternativeV alts v = specMatchAlternative alts v := by
  unfold matchAlternativeV specMatchAlternative
  rw [← cmList_eq_mapM]
  simp only [matchAlternative]
  cases hsc : cmList alts v with
  | error e => simp [hsc]
  | ok scores =>
    simp only [hsc, except_ok_bind, except_map_bind, except_map_ok']
    by_cases hm0 : specMaxScore scores = 0
    · have hall : ∀ x ∈ scores, x ≤ 0 := by
        intro x hx
        have := le_specMaxScore scores x hx
        omega
      have h3 : altsAtScore alts scores 3 = [] :=
        altsAtScore_nil_of_gt hall (by omega)
      have h2 : altsAtScore alts scores 2 = [] :=
        altsAtScore_nil_of_gt hall (by omega)
      have h1 : altsAtScore alts scores 1 = [] :=
        altsAtScore_nil_of_gt hall (by omega)
      rw [if_neg (show ¬((altsAtScore alts scores 3).length = 1) by
            rw [h3]; simp)]
      rw [if_neg (show ¬((altsAtScore alts scores 3).length ≥ 2) by
            rw [h3]; simp)]
      rw [if_neg (show ¬((altsAtScore alts scores 2).length = 1) by
            rw [h2]; simp)]
      rw [if_neg (show ¬((altsAtScore alts scores 2).length ≥ 2) by
            rw [h2]; simp)]
      rw [if_neg (show ¬((altsAtScore alts scores 1).length = 1) by
            rw [h1]; simp)]
      rw [if_neg (show ¬((altsAtScore alts scores 1).length ≥ 2) by
            rw [h1]; simp)]
      rw [if_pos hm0]
      simp [headAlt_val]
    · have hmem := specMaxScore_mem hm0
      have hle3 : specMaxScore scores ≤ 3 := cmList_ok_le_3 hsc _ hmem
      have hlen := cmList_length hsc
      have hne : altsAtScore alts scores (specMaxScore scores) ≠ [] :=
        altsAtScore_ne_nil hlen hmem
      have hall := le_specMaxScore scores
      have hm123 : specMaxScore scores = 1 ∨ specMaxScore scores = 2 ∨
          specMaxScore scores = 3 := by omega
      rcases hm123 with hm | hm | hm
      · rw [hm] at hne
        have h3nil : altsAtScore alts scores 3 = [] :=
          @altsAtScore_nil_of_gt alts scores 1 3
            (fun x hx => by have := hall x hx; omega) (by omega)
        have h2nil : altsAtScore alts scores 2 = [] :=
          @altsAtScore_nil_of_gt alts scores 1 2
            (fun x hx => by have := hall x hx; omega) (by omega)
        rw [hm, ← altsAtScore_eq_specTied alts scores 1]
        rw [if_neg (show ¬((altsAtScore alts scores 3).length = 1) by
              rw [h3nil]; simp)]
        rw [if_neg (show ¬((altsAtScore alts scores 3).length ≥ 2) by
              rw [h3nil]; simp)]
        rw [if_neg (show ¬((altsAtScore alts scores 2).length = 1) by
              rw [h2nil]; simp)]
        rw [if_neg (show ¬((altsAtScore alts scores 2).length ≥ 2) by
              rw [h2nil]; simp)]
        rw [if_neg (show ¬(1 : Nat) = 0 by omega)]
        by_cases hT : (altsAtScore alts scores 1).length = 1
        · rw [if_pos hT, if_pos hT]
          simp [headAltOf_val]
        · have hT2 : (altsAtScore alts scores 1).length ≥ 2 := by
            have h0 : (altsAtScore alts scores 1).length ≠ 0 :=
              fun h0 => hne (List.length_eq_zero.mp h0)
            omega
          rw [if_neg hT, if_pos hT2, if_neg hT]
          exact matchTiebreak_spec _ _ v
      · rw [hm] at hne
        have h3nil : altsAtScore alts scores 3 = [] :=
          @altsAtScore_nil_of_gt alts scores 2 3
            (fun x hx => by have := hall x hx; omega) (by omega)
        rw [hm, ← altsAtScore_eq_specTied alts scores 2]
        rw [if_neg (show ¬((altsAtScore alts scores 3).length = 1) by
              rw [h3nil]; simp)]
        rw [if_neg (show ¬((altsAtScore alts scores 3).length ≥ 2) by
              rw [h3nil]; simp)]
        rw [if_neg (show ¬(2 : Nat) = 0 by omega)]
        by_cases hT : (altsAtScore alts scores 2).length = 1
        · rw [if_pos hT, if_pos hT]
          simp [headAltOf_val]
        · have hT2 : (altsAtScore alts scores 2).length ≥ 2 := by
            have h0 : (altsAtScore alts scores 2).length ≠ 0 :=
              fun h0 => hne (List.length_eq_zero.mp h0)
            omega
          rw [if_neg hT, if_pos hT2, if_neg hT]
          exact matchTiebreak_spec _ _ v
      · rw [hm] at hne
        rw [hm, ← altsAtScore_eq_specTied alts scores 3]
        rw [if_neg (show ¬(3 : Nat) = 0 by omega)]
        by_cases hT : (altsAtScore alts scores 3).length = 1
        · rw [if_pos hT, if_pos hT]
          simp [headAltOf_val]
        · have hT2 : (altsAtScore alts scores 3).length ≥ 2 := by
            have h0 : (altsAtScore alts scores 3).length ≠ 0 :=
              fun h0 => hne (List.length_eq_zero.mp h0)
            omega
          rw [if_neg hT, if_pos hT2, if_neg hT]
          exact matchTiebreak_spec _ _ v

/-- C2 (amended): whenever the alternative-matching algorithm of the `or`
type returns at all, its result is exactly the claim's selection rule —
the unique alternative at the highest nonzero score, the tie-break cascade
(first to strictly validate, else first to normalize a deep copy, else
first to normalize a deep copy with unknown fields allowed, else the first
tied alternative) on a tie, and the first alternative overall when every
alternative scores 0.  The amendment: the claim's universal form fails
because scoring itself can throw — see the counterexample with a `boolean`
alternative. -/
theorem c2_or_match_rule (alts : List Sch) (v : Value) (r : Option Sch)
    (h : matchAlternativeV alts v = .ok r) :
    specMatchAlternative alts v = .ok r := by
  rw [← matchAltV_eq_spec]
  exact h

/-- Witness for `c2_or_match_rule`: on `or({}, Number, Boolean)` and the
string `'5'`, the resolver returns the `number` alternative (unique score-2
holder: `'5'` parses as a number while it is neither a boolean-ish string
nor `0`/`1`), and the spec rule agrees. -/
theorem c2_or_match_rule_witness :
    matchAlternativeV [numPlain, boolPlain] (.vstr "5") = .ok (some numPlain) ∧
    specMatchAlternative [numPlain, boolPlain] (.vstr "5")
      = .ok (some numPlain) := by
  have hEval : matchAlternativeV [numPlain, boolPlain] (.vstr "5")
      = .ok (some numPlain) := by
    simp +decide [matchAlternativeV, matchAlternative, cmList, cmS, numPlain,
      boolPlain, plain, jsStrToNum, jsToLower, digitsToNat, strToNatM,
      allDigits, trueStringSet, falseStringSet, altsAtScore, headAltOf,
      headWithMem, liftAlt]
  exact ⟨hEval, c2_or_match_rule _ _ _ hEval⟩

/-- C2 (counterexample to the literal claim): on `or({}, Boolean, Number)`
and the number `5`, the alternative-matching algorithm does not return any
alternative — `SchemaTypeBoolean.checkTypeMatch` calls
`value.toLowerCase()` on the number `5` while scoring, so the resolver
throws a host `TypeError` instead of picking the `number` alternative. -/
theorem c2_counterexample_score_crash :
    matchAlternativeV [boolPlain, numPlain] (.vnum 5) =
      .error (.typeError "value.toLowerCase is not a function") := by
  simp +decide [matchAlternativeV, matchAlternative, cmList, cmS, boolPlain,
    numPlain, plain]

theorem asyncSync_all (h : Handlers) (hp : h.postField = none) :
    ∀ a : Nat,
    (∀ (v : Value) (sch? : Option Sch) (field : String) (st : St),
      (match sch? with | none => 0 | some s => 10 * sizeOf s + 5) < a →
      transformAsyncSV h v sch? field st = transformSV h v sch? field st) ∧
    (∀ (sch : Sch) (v : Value) (field : String) (st : St),
      10 * sizeOf sch + 4 < a →
      schTransformAsync h sch v field st = schTransform h sch v field st) ∧
    (∀ (props : List (String × Sch)) (entries : List (String × Value))
        (field : String) (st : St) (cur : Value),
      10 * sizeOf props + 2 < a →
      trFieldsObjA h props entries field st cur
        = trFieldsObj h props entries field st cur) ∧
    (∀ (props rem : List (String × Sch)) (visited : List String)
        (field : String) (st : St) (batch : List (String × Value)),
      10 * sizeOf props + 2 < a →
      trMissingObjA h props rem visited field st batch
        = trMissingObj h props rem visited field st batch) ∧
    (∀ (valsch : Sch) (entries : List (String × Value)) (field : String)
        (st : St) (cur : Value),
      10 * sizeOf valsch + 6 < a →
      trElemsMapA h valsch entries field st cur
        = trElemsMap h valsch entries field st cur) ∧
    (∀ (esch : Sch) (entries : List (String × Value)) (field : String)
        (st : St) (cur : Value),
      10 * sizeOf esch + 6 < a →
      trElemsArrA h esch entries field st cur
        = trElemsArr h esch entries field st cur) ∧
    (∀ (esch : Sch) (kf : Option KeyField) (xs : List Value)
        (field : String) (st : St),
      10 * sizeOf esch + 6 < a →
      trElemsArrsetA h esch kf xs field st
        = (fun r => (r.1, r.2.filter (fun x => !x.isUndef))) <$>
            trElemsArrset h esch kf xs field st) := by
  intro a
  induction a using Nat.strong_induction_on with
  | _ a ih =>
    refine ⟨?_, ?_, ?_, ?_, ?_, ?_, ?_⟩
    · -- transformAsyncSV = transformSV
      intro v sch? field st hm
      cases sch? with
      | none => simp only [transformAsyncSV, transformSV]
      | some sch =>
        have hP := ih (10 * sizeOf sch + 5) (by simpa using hm)
        cases hp2 : (h.onField field v sch st).2 with
        | stop => simp [transformAsyncSV, transformSV, hp, hp2]
        | stopSet w => simp [transformAsyncSV, transformSV, hp, hp2]
        | cont nv =>
          have hS2 := hP.2.1 sch nv field (h.onField field v sch st).1
            (by omega)
          simp only [transformAsyncSV, transformSV, hp2, hp, hS2]
          by_cases hnn : nv.isNullish = true <;> simp [hnn]
    · -- schTransformAsync = schTransform
      intro sch v field st hm
      have hP := ih (10 * sizeOf sch + 4) hm
      obtain ⟨kind, r, d, en⟩ := sch
      cases kind with
      | str a b => simp only [schTransformAsync, schTransform]
      | num a b => simp only [schTransformAsync, schTransform]
      | bool => simp only [schTransformAsync, schTransform]
      | mixed sm => simp only [schTransformAsync, schTransform]
      | obj props =>
        have hsz : sizeOf props < sizeOf (Sch.mk (.obj props) r d en) := by
          simp [Sch.mk.sizeOf_spec, SchKind.obj.sizeOf_spec]
          omega
        have h3 := hP.2.2.1 props (objEntries v) field st v (by omega)
        have h4 := fun st1 => hP.2.2.2.1 props props
          ((objEntries v).map (·.1)) field st1 ([] : List (String × Value))
          (by omega)
        simp only [schTransformAsync, schTransform, h3]
        cases htr : trFieldsObj h props (objEntries v) field st v with
        | error e => simp
        | ok p => simp [h4 p.1]
      | mapT valsch =>
        have hsz : sizeOf valsch < sizeOf (Sch.mk (.mapT valsch) r d en) := by
          simp [Sch.mk.sizeOf_spec, SchKind.mapT.sizeOf_spec]
          omega
        have h5 := hP.2.2.2.2.1 valsch (objEntries v) field st v (by omega)
        simp only [schTransformAsync, schTransform, h5]
      | array esch =>
        have hsz : sizeOf esch < sizeOf (Sch.mk (.array esch) r d en) := by
          simp [Sch.mk.sizeOf_spec, SchKind.array.sizeOf_spec]
          omega
        have h6 := hP.2.2.2.2.2.1 esch (arrEntries v) field st v (by omega)
        simp only [schTransformAsync, schTransform, h6]
      | arrset esch kf =>
        have hsz : sizeOf esch < sizeOf (Sch.mk (.arrset esch kf) r d en) := by
          simp [Sch.mk.sizeOf_spec, SchKind.arrset.sizeOf_spec]
          omega
        cases v with
        | varr xs =>
          have h7 := hP.2.2.2.2.2.2 esch kf xs field st (by omega)
          simp only [schTransformAsync, schTransform, h7]
          cases htr : trElemsArrset h esch kf xs field st with
          | error e => simp
          | ok p => simp
        | vundef => simp only [schTransformAsync, schTransform]
        | vnull => simp only [schTransformAsync, schTransform]
        | vbool b => simp only [schTransformAsync, schTransform]
        | vnum n => simp only [schTransformAsync, schTransform]
        | vstr s => simp only [schTransformAsync, schTransform]
        | vobj fs => simp only [schTransformAsync, schTransform]
      | orT alts =>
        have hsz : sizeOf alts < sizeOf (Sch.mk (.orT alts) r d en) := by
          simp [Sch.mk.sizeOf_spec, SchKind.orT.sizeOf_spec]
          omega
        simp only [schTransformAsync, schTransform]
        cases hma : matchAlternative alts v with
        | error e => simp [hma]
        | ok opt =>
          cases opt with
          | none =>
            have h1 := hP.1 v none field st (by simp; try omega)
            simp [hma, h1]
          | some s =>
            have hss : sizeOf s.1 < sizeOf alts := s.2
            have h1 := hP.1 v (some s.1) field st (by simp; try omega)
            simp [hma, h1]
    · -- trFieldsObjA = trFieldsObj
      intro props entries field st cur hm
      induction entries generalizing st cur with
      | nil => simp only [trFieldsObjA, trFieldsObj]
      | cons e rest ihe =>
        obtain ⟨k, subv⟩ := e
        have hP := ih (10 * sizeOf props + 2) hm
        have h1 := hP.1 subv (lookupProp props k) (joinField field k) st (by
          cases hl : lookupProp props k with
          | none => simp; try omega
          | some c =>
            have := sizeOf_lookupProp hl
            simp
            omega)
        simp only [trFieldsObjA, trFieldsObj, h1]
        cases htr : transformSV h subv (lookupProp props k) (joinField field k) st with
        | error e => simp
        | ok p => simp [ihe p.1 (objSetFieldV cur k p.2)]
    · -- trMissingObjA = trMissingObj
      intro props rem visited field st batch hm
      induction rem generalizing visited st batch with
      | nil => simp only [trMissingObjA, trMissingObj]
      | cons e rest ihe =>
        obtain ⟨k, ksch⟩ := e
        have hP := ih (10 * sizeOf props + 2) hm
        have h1 := hP.1 .vundef (lookupProp props k) (joinField field k) st (by
          cases hl : lookupProp props k with
          | none => simp; try omega
          | some c =>
            have := sizeOf_lookupProp hl
            simp
            omega)
        simp only [trMissingObjA, trMissingObj]
        by_cases hv : visited.contains k = true
        · rw [if_pos hv, if_pos hv]
          exact ihe visited st batch
        · rw [if_neg hv, if_neg hv]
          rw [h1]
          cases htr : transformSV h .vundef (lookupProp props k) (joinField field k) st with
          | error e => simp
          | ok p => simp [ihe (visited ++ [k]) p.1 (batch ++ [(k, p.2)])]
    · -- trElemsMapA = trElemsMap
      intro valsch entries field st cur hm
      induction entries generalizing st cur with
      | nil => simp only [trElemsMapA, trElemsMap]
      | cons e rest ihe =>
        obtain ⟨k, subv⟩ := e
        have hP := ih (10 * sizeOf valsch + 6) hm
        have h1 := hP.1 subv (some valsch) (joinField field k) st (by simp; try omega)
        simp only [trElemsMapA, trElemsMap, h1]
        cases htr : transformSV h subv (some valsch) (joinField field k) st with
        | error e => simp
        | ok p => simp [ihe p.1 (mapSetFieldV cur k p.2)]
    · -- trElemsArrA = trElemsArr
      intro esch entries field st cur hm
      induction entries generalizing st cur with
      | nil => simp only [trElemsArrA, trElemsArr]
      | cons e rest ihe =>
        obtain ⟨k, subv⟩ := e
        have hP := ih (10 * sizeOf esch + 6) hm
        have h1 := hP.1 subv (some esch) (joinField field k) st (by simp; try omega)
        simp only [trElemsArrA, trElemsArr, h1]
        cases htr : transformSV h subv (some esch) (joinField field k) st with
        | error e => simp
        | ok p => simp [ihe p.1 (arrSetFieldV cur k p.2)]
    · -- trElemsArrsetA = filtered trElemsArrset
      intro esch kf xs field st hm
      induction xs generalizing st with
      | nil => simp [trElemsArrsetA, trElemsArrset]
      | cons el rest ihe =>
        have hP := ih (10 * sizeOf esch + 6) hm
        have h1 := hP.1 el (some esch)
          (joinField field ((getElementKey kf el).getD "undefined")) st
          (by simp; try omega)
        simp only [trElemsArrsetA, trElemsArrset, h1]
        cases htr : transformSV h el (some esch)
            (joinField field ((getElementKey kf el).getD "undefined")) st with
        | error e => simp
        | ok p =>
          simp only [except_ok_bind, except_map_bind]
          rw [ihe p.1]
          cases htr2 : trElemsArrset h esch kf rest field p.1 with
          | error e => simp
          | ok q =>
            cases hu : p.2.isUndef <;>
              simp [List.filter_cons, hu]

/-- C9 (amended): with no `postField` handler installed, `transformAsync`
is exactly the synchronous `transform` — the same strictly sequential
pre-order visit of every field, the same results and the same errors, so a
later sibling's handler runs only after the earlier sibling's entire
subtree has resolved.  The amendment: when a `postField` handler is
present the async variant is *not* the same sequence — the promise chain
runs `postField` even when `onField` returned a stop sentinel, which the
synchronous variant skips (see the counterexample). -/
theorem c9_transformAsync_eq_sync (h : Handlers) (hp : h.postField = none)
    (v : Value) (sch? : Option Sch) (field : String) (st : St) :
    transformAsyncSV h v sch? field st = transformSV h v sch? field st :=
  (asyncSync_all h hp
    ((match sch? with | none => 0 | some s => 10 * sizeOf s + 5) + 1)).1
    v sch? field st (by omega)

/-- Witness for `c9_transformAsync_eq_sync`: the logging handlers (no
`postField`) transform `'x'` identically in the async and sync
pipelines. -/
theorem c9_transformAsync_eq_sync_witness :
    recHandlers.postField = none ∧
    transformAsyncSV recHandlers (.vstr "x") (some mixedPlain) "" stEmpty
      = transformSV recHandlers (.vstr "x") (some mixedPlain) "" stEmpty :=
  ⟨rfl, c9_transformAsync_eq_sync recHandlers rfl _ _ _ _⟩

/-- C9 (counterexample to the literal claim): with a `postField` handler
installed, the async pipeline is not the synchronous sequence — after a
stop sentinel the synchronous transform returns the original value and
never calls `postField`, while `_transformSubschemaValueAsync` chains
`postField` unconditionally, so the async result is the `postField`
replacement `99` instead of `'x'`. -/
theorem c9_counterexample_postField_after_stop :
    transformSV stopWithPost (.vstr "x") (some mixedPlain) "" stEmpty
      = .ok (stEmpty, .vstr "x") ∧
    transformAsyncSV stopWithPost (.vstr "x") (some mixedPlain) "" stEmpty
      = .ok (stEmpty, .vnum 99) ∧
    Value.vstr "x" ≠ .vnum 99 := by
  refine ⟨?_, ?_, by decide⟩
  · simp +decide [transformSV, stopWithPost, mixedPlain, plain]
  · simp +decide [transformAsyncSV, stopWithPost, mixedPlain, plain]
